import Mathlib

/-!
Package `linuxver`: parsing, rendering and ordering of upstream Linux version strings.

A shallow embedding of `version.go` (package `linuxver`) and a verification of
its parser `New`, its renderer `String` and its comparison predicates.

Conventions of the embedding:

* a Go `string` is a Lean `String`; the inputs that Lean cannot represent
  (byte strings that are not valid UTF-8) contain a byte outside ASCII,
  so they are neither `Unversioned` nor matched by the pattern `vre`;
* a `uint8` field is a `Nat`; the conversion `uint8(i)` is `i % 256`, and
  a theorem that needs the field width states the bound as a hypothesis;
* a possibly-nil `*LinuxVersion` is an `Option LinuxVersion`;
* the three library routines the package calls are modelled after the Go
  standard library: `regexp` (a backtracking matcher with leftmost-first
  priorities over the operators that `vre` uses), `strconv.Atoi` and the
  `%d` verb of `fmt.Sprintf`.
-/

namespace Linuxver

/-! ## Library model: `regexp` -/

/-- A character class: a single character such as `[.]`, or a range such as `[0-9]`. -/
inductive CharClass where
  | one (c : Char)
  | range (lo hi : Char)

/-- Membership of a character in a class. -/
def CharClass.mem : CharClass → Char → Bool
  | .one c, x => x == c
  | .range lo hi, x => decide (lo.toNat ≤ x.toNat) && decide (x.toNat ≤ hi.toNat)

/-- The operators of regular expressions that occur in `vre`. -/
inductive Regex where
  /-- The anchor `^`: beginning of text. -/
  | bot
  /-- The anchor `$`: end of text (no multi-line flag). -/
  | eot
  /-- One character of a class. -/
  | cls (k : CharClass)
  /-- Greedy repetition `k{lo,hi}` of a class; `hi = none` is unbounded, so `k+` is `rep k 1 none`. -/
  | rep (k : CharClass) (lo : Nat) (hi : Option Nat)
  /-- Concatenation. -/
  | seq (a b : Regex)
  /-- Greedy option `(?:a)?`. -/
  | opt (a : Regex)
  /-- Capturing group number `i`. -/
  | cap (i : Nat) (a : Regex)

/-- Number of capturing groups of a pattern. -/
def Regex.numSubexp : Regex → Nat
  | .seq a b => a.numSubexp + b.numSubexp
  | .opt a => a.numSubexp
  | .cap _ a => a.numSubexp + 1
  | _ => 0

/-- A state of the matcher: the number of characters consumed since the beginning of the
text, the text that remains, and the text captured by each group (empty when a group has
not taken part in the match). -/
structure Thread where
  pos : Nat
  rest : List Char
  caps : Nat → List Char

/-- May a repetition that has matched `n` times, with the optional maximum `hi`, match once
more. -/
def belowMax : Option Nat → Nat → Bool
  | none, _ => true
  | some h, n => decide (n < h)

/-- All the ways in which `k{lo,hi}` matches at the head of the text, longest first (greedy):
each is the pair of the matched characters and the remaining text. The arguments `n` and
`taken` are the count and the characters matched so far. -/
def repMatches (k : CharClass) (lo : Nat) (hi : Option Nat) :
    Nat → List Char → List Char → List (List Char × List Char)
  | n, taken, [] => if lo ≤ n then [(taken, [])] else []
  | n, taken, c :: cs =>
    (if k.mem c && belowMax hi n
      then repMatches k lo hi (n + 1) (taken ++ [c]) cs else [])
    ++ (if lo ≤ n then [(taken, c :: cs)] else [])

/-- The threads that result from matching a pattern at a thread, in order of priority. -/
def Regex.run : Regex → Thread → List Thread
  | .bot, t => if t.pos = 0 then [t] else []
  | .eot, t => if t.rest.isEmpty then [t] else []
  | .cls k, t =>
    match t.rest with
    | [] => []
    | c :: cs => if k.mem c then [{ t with pos := t.pos + 1, rest := cs }] else []
  | .rep k lo hi, t =>
    (repMatches k lo hi 0 [] t.rest).map
      (fun mr => { t with pos := t.pos + mr.1.length, rest := mr.2 })
  | .seq a b, t => (a.run t).flatMap (fun u => b.run u)
  | .opt a, t => a.run t ++ [t]
  | .cap i a, t =>
    (a.run t).map (fun u =>
      { u with caps := fun j => if j = i then t.rest.take (u.pos - t.pos) else u.caps j })

/-- Leftmost match: the first start offset at which the pattern matches, with the
highest-priority thread there. Returns the start offset, the text from there on, and the
final thread. -/
def Regex.search (re : Regex) : Nat → List Char → Option (List Char × Thread)
  | pos, [] => ((re.run ⟨pos, [], fun _ => []⟩).head?).map (fun t => ([], t))
  | pos, c :: cs =>
    match (re.run ⟨pos, c :: cs, fun _ => []⟩).head? with
    | some t => some (c :: cs, t)
    | none => Regex.search re (pos + 1) cs

/-- The method `(*Regexp).FindStringSubmatch`: the text of the leftmost match and of each
capturing group, or the empty (nil) slice when there is no match. -/
def Regex.FindStringSubmatch (re : Regex) (s : String) : List String :=
  match re.search 0 s.data with
  | none => []
  | some (txt, t) =>
    String.mk (txt.take (txt.length - t.rest.length)) ::
      (List.range re.numSubexp).map (fun i => String.mk (t.caps (i + 1)))

/-! ## Library model: `strconv.Atoi` and `fmt` -/

/-- The size of Go's `int` on the target platform. -/
inductive IntSize where
  | bits32
  | bits64
  deriving DecidableEq

/-- Number of bits of `int`. -/
def IntSize.bits : IntSize → Nat
  | .bits32 => 32
  | .bits64 => 64

/-- The value of a decimal digit character, `ch - '0'`. -/
def digitVal (ch : Char) : Nat := ch.toNat - '0'.toNat

/-- Is the character one of `0` to `9`. -/
def isDigit (ch : Char) : Bool := decide ('0'.toNat ≤ ch.toNat) && decide (ch.toNat ≤ '9'.toNat)

/-- The function `strconv.Atoi`: the integer and whether an error is reported. A string that
is not an optional sign followed by decimal digits gives 0 with a syntax error; a value that
does not fit `int` gives the nearest bound of `int` with a range error. -/
def Atoi (sz : IntSize) (s : String) : Int × Bool :=
  match s.data with
  | [] => (0, true)
  | c :: cs =>
    let neg := c == '-'
    let body := if c == '+' || c == '-' then cs else c :: cs
    if body.isEmpty || !body.all isDigit then (0, true)
    else
      let un : Nat := body.foldl (fun n ch => n * 10 + digitVal ch) 0
      let cutoff : Nat := 2 ^ (sz.bits - 1)
      if !neg && decide (cutoff ≤ un) then (((cutoff - 1 : Nat) : Int), true)
      else if neg && decide (cutoff < un) then (-(cutoff : Int), true)
      else (if neg then -(un : Int) else (un : Int), false)

/-- The conversion `uint8(i)` of an `int`: the low eight bits. -/
def uint8 (i : Int) : Nat := (i % 256).toNat

/-- The digit loop of `fmt`'s `fmtInteger` in base 10: while `u >= 10` the digit
`'0' + u - next*10` with `next = u/10` is put in front of the buffer, then the last digit.
The first argument bounds the number of iterations. -/
def fmtIntegerLoop : Nat → Nat → List Char → List Char
  | 0, u, buf => Char.ofNat ('0'.toNat + u) :: buf
  | fuel + 1, u, buf =>
    if 10 ≤ u then
      fmtIntegerLoop fuel (u / 10) (Char.ofNat ('0'.toNat + (u - u / 10 * 10)) :: buf)
    else Char.ofNat ('0'.toNat + u) :: buf

/-- The verb `%d` of `fmt.Sprintf` on an unsigned integer. -/
def fmtInteger (u : Nat) : String := String.mk (fmtIntegerLoop u u [])

/-! ## The package `linuxver` -/

/-- LinuxVersion represents an upstream Linux version; the four fields are `uint8`. -/
structure LinuxVersion where
  Major : Nat
  Minor : Nat
  Rel : Nat
  RC : Nat
  deriving DecidableEq

/-- NoVersion is a special linux version for commits which do not precede a version tag. -/
def NoVersion : LinuxVersion := ⟨255, 0, 0, 0⟩

/-- The class `[0-9]`. -/
def digit09 : CharClass := .range '0' '9'

/-- The pattern `^v(([0-9]{1,2})[.]([0-9]+)(?:[.]([0-9]+))?(?:-rc([0-9]+))?)$`. -/
def vre : Regex :=
  .seq .bot
    (.seq (.cls (.one 'v'))
      (.seq
        (.cap 1
          (.seq (.cap 2 (.rep digit09 1 (some 2)))
            (.seq (.cls (.one '.'))
              (.seq (.cap 3 (.rep digit09 1 none))
                (.seq (.opt (.seq (.cls (.one '.')) (.cap 4 (.rep digit09 1 none))))
                  (.opt
                    (.seq (.cls (.one '-'))
                      (.seq (.cls (.one 'r'))
                        (.seq (.cls (.one 'c')) (.cap 5 (.rep digit09 1 none)))))))))))
        .eot))

/-- String converts the LinuxVersion to a readable string. -/
def LinuxVersion.String (v : LinuxVersion) : String :=
  if v.Major = 0 then ""
  else if v.Major = 255 then "Unversioned"
  else
    let s := "v" ++ fmtInteger v.Major ++ "." ++ fmtInteger v.Minor
    let s := if v.Rel > 0 then s ++ "." ++ fmtInteger v.Rel else s
    let s := if v.RC > 0 then s ++ "-rc" ++ fmtInteger v.RC else s
    s

/-- Equals returns true if LinuxVersion v1 == v2. -/
def LinuxVersion.Equals (v1 v2 : LinuxVersion) : Bool :=
  decide (v1.Major = v2.Major) && decide (v1.Minor = v2.Minor) &&
    decide (v1.Rel = v2.Rel) && decide (v1.RC = v2.RC)

/-- ComesBefore returns true if v1 is older than v2. -/
def LinuxVersion.ComesBefore (v1 v2 : LinuxVersion) : Bool :=
  if v1.Major < v2.Major then true
  else if v1.Major > v2.Major then false
  else if v1.Minor < v2.Minor then true
  else if v1.Minor > v2.Minor then false
  else if v1.Rel < v2.Rel then true
  else if v1.Rel > v2.Rel then false
  else if v2.RC = 0 then decide (v1.RC ≠ 0)
  else if v1.RC = 0 then false
  else decide (v1.RC < v2.RC)

/-- ComesAfter returns true if v1 is newer than v2. -/
def LinuxVersion.ComesAfter (v1 v2 : LinuxVersion) : Bool :=
  if v1.Major > v2.Major then true
  else if v1.Major < v2.Major then false
  else if v1.Minor > v2.Minor then true
  else if v1.Minor < v2.Minor then false
  else if v1.Rel > v2.Rel then true
  else if v1.Rel < v2.Rel then false
  else if v1.RC = 0 then decide (v2.RC ≠ 0)
  else if v2.RC = 0 then false
  else decide (v1.RC > v2.RC)

/-- New tries to convert a given string into a LinuxVersion. If successful, the
LinuxVersion is returned, else nil (`none`). -/
def New (sz : IntSize) (v : String) : Option LinuxVersion :=
  if v = "Unversioned" then some NoVersion
  else
    let m := vre.FindStringSubmatch v
    if m.length ≠ 6 then none
    else
      let maj := uint8 (Atoi sz (m.getD 2 "")).1
      let min := uint8 (Atoi sz (m.getD 3 "")).1
      let rel := if (m.getD 4 "").length > 0 then uint8 (Atoi sz (m.getD 4 "")).1 else 0
      let rc := if (m.getD 5 "").length > 0 then uint8 (Atoi sz (m.getD 5 "")).1 else 0
      some ⟨maj, min, rel, rc⟩

/-! ## The tests of the package -/

/-- The body of the loop of `TestNew` on one row: the row passes when `New` gives nil for a
row that expects nil, or a value with the expected four fields whose expected rendering is
the input. -/
def testNewRow (sz : IntSize) (v : String) (ver : Option LinuxVersion) : Bool :=
  match New sz v, ver with
  | none, none => true
  | none, some _ => false
  | some _, none => false
  | some r, some e =>
    decide (r.Major = e.Major) && decide (r.Minor = e.Minor) && decide (r.Rel = e.Rel) &&
      decide (r.RC = e.RC) && decide (v = e.String)

/-- The function `TestNew`, with its table. -/
def TestNew (sz : IntSize) : Bool :=
  [("v1.0", some (⟨1, 0, 0, 0⟩ : LinuxVersion)),
    ("v1.2", some ⟨1, 2, 0, 0⟩),
    ("v1.20", some ⟨1, 20, 0, 0⟩),
    ("v10.20", some ⟨10, 20, 0, 0⟩),
    ("v1.2.3", some ⟨1, 2, 3, 0⟩),
    ("v1.2.3-rc4", some ⟨1, 2, 3, 4⟩),
    ("v1.2.13-rc4", some ⟨1, 2, 13, 4⟩),
    ("v1.0-rc3", some ⟨1, 0, 0, 3⟩),
    ("v1.0-rc3x", none),
    ("v100.0", none),
    ("v10.0.3-", none),
    ("10.0.3", none)].all (fun row => testNewRow sz row.1 row.2)

/-- The body of the loop of `TestVersionCompare` on one row. -/
def testCompareRow (sz : IntSize) (v1 v2 op : String) (result : Bool) : Bool :=
  match New sz v1, New sz v2 with
  | some a, some b =>
    if op = "==" then a.Equals b == result
    else if op = "<" then a.ComesBefore b == result
    else if op = ">" then a.ComesAfter b == result
    else false
  | _, _ => false

/-- The function `TestVersionCompare`, with its table. -/
def TestVersionCompare (sz : IntSize) : Bool :=
  [("v1.0", "v1.0", "==", true), ("v1.0", "v2.0", "==", false), ("v1.0", "v2.0", "<", true),
    ("v2.0", "v1.0", "<", false), ("v1.0", "v1.0", "<", false), ("v2.0", "v1.0", ">", true),
    ("v1.0", "v2.0", ">", false), ("v1.0", "v1.0", ">", false),
    ("v1.1", "v1.1", "==", true), ("v1.0", "v1.1", "==", false), ("v1.0", "v1.1", "<", true),
    ("v1.1", "v1.0", "<", false), ("v1.0", "v1.0", "<", false), ("v1.1", "v1.0", ">", true),
    ("v1.0", "v1.1", ">", false), ("v1.0", "v1.0", ">", false),
    ("v1.0-rc1", "v1.0-rc1", "==", true), ("v1.0-rc1", "v1.0-rc2", "==", false),
    ("v1.0", "v1.0-rc1", "==", false), ("v1.0-rc1", "v1.0-rc2", "<", true),
    ("v1.0-rc1", "v1.0-rc1", "<", false), ("v1.0-rc1", "v1.0", "<", true),
    ("v1.0", "v1.0-rc1", "<", false), ("v1.0-rc1", "v1.0-rc2", ">", false),
    ("v1.0-rc1", "v1.0-rc1", ">", false), ("v1.0-rc1", "v1.0", ">", false),
    ("v1.0", "v1.0-rc1", ">", true)].all
    (fun row => testCompareRow sz row.1 row.2.1 row.2.2.1 row.2.2.2)

/-- The text of an optional group: nothing when the group is absent, else the separator
followed by the digits. -/
def optText (sep : List Char) : Option (List Char) → List Char
  | none => []
  | some r => sep ++ r

/-! ## Specification-side notions

These definitions follow the wording of the specification, not the code: the grammar as a
decomposition of the text, the decimal value of a digit string and the decimal numeral of a
number (both through Mathlib's `Nat.ofDigits` and `Nat.digits`), and the rendering as one
formula. -/

/-- The ten decimal digits. -/
def decimalDigits : List Char := ['0', '1', '2', '3', '4', '5', '6', '7', '8', '9']

/-- One or more decimal digits. -/
def Digits1 (s : String) : Prop := s.data ≠ [] ∧ ∀ c ∈ s.data, c ∈ decimalDigits

instance (s : String) : Decidable (Digits1 s) := by
  unfold Digits1; infer_instance

/-- The digit groups of a version string: major, minor, and the optional release and
release-candidate groups. -/
structure Fields where
  maj : String
  min : String
  rel : Option String
  rc : Option String

/-- The text with the given digit groups: `v`, major, `.`, minor, optionally `.` and the
release, optionally `-rc` and the release candidate. -/
def Fields.text (p : Fields) : String :=
  "v" ++ p.maj ++ "." ++ p.min ++
    (match p.rel with
      | none => ""
      | some r => "." ++ r) ++
    (match p.rc with
      | none => ""
      | some r => "-rc" ++ r)

/-- The conditions of the grammar on the digit groups: 1 to 2 digits of major, 1 or more
digits in every other group that is present. -/
def Fields.WellFormed (p : Fields) : Prop :=
  Digits1 p.maj ∧ p.maj.length ≤ 2 ∧ Digits1 p.min ∧
    (∀ r ∈ p.rel, Digits1 r) ∧ (∀ r ∈ p.rc, Digits1 r)

instance (p : Fields) : Decidable p.WellFormed := by
  unfold Fields.WellFormed; infer_instance

/-- The input grammar: the whole string is `v`, 1 to 2 digits, `.`, 1 or more digits,
optionally `.` and 1 or more digits, optionally `-rc` and 1 or more digits. -/
def Grammar (s : String) : Prop := ∃ p : Fields, p.WellFormed ∧ s = p.text

/-- The decimal value of a digit string. -/
def decimalValue (s : String) : Nat :=
  Nat.ofDigits 10 (s.data.reverse.map (fun c => c.toNat - 48))

/-- The decimal numeral of a number, without leading zeros. -/
def dec (n : Nat) : String :=
  if n = 0 then "0" else String.mk ((Nat.digits 10 n).reverse.map Nat.digitChar)

/-- The rendering, as one formula: empty for major 0, `Unversioned` for major 255, and
otherwise `v`, the major, `.`, the minor, then `.` and the release exactly when the release
is positive, then `-rc` and the release candidate exactly when it is positive. -/
def render (v : LinuxVersion) : String :=
  if v.Major = 0 then ""
  else if v.Major = 255 then "Unversioned"
  else
    "v" ++ dec v.Major ++ "." ++ dec v.Minor ++
      (if v.Rel > 0 then "." ++ dec v.Rel else "") ++
      (if v.RC > 0 then "-rc" ++ dec v.RC else "")

/-- The digit groups of the rendering of a version with an ordinary major. -/
def renderFields (v : LinuxVersion) : Fields :=
  ⟨dec v.Major, dec v.Minor, if v.Rel > 0 then some (dec v.Rel) else none,
    if v.RC > 0 then some (dec v.RC) else none⟩

/-- A digit string without leading zeros: it is `0` or does not start with `0`. -/
def NoLeadingZero (d : String) : Prop := d = "0" ∨ d.data.head? ≠ some '0'

instance (d : String) : Decidable (NoLeadingZero d) := by
  unfold NoLeadingZero; infer_instance

/-- The digit groups are the numerals of field values that `String` writes: every group
without leading zeros and of value at most 255, the major not zero, and a release or
release-candidate group, when present, not zero. -/
def Fields.Canonical (p : Fields) : Prop :=
  NoLeadingZero p.maj ∧ p.maj ≠ "0" ∧ NoLeadingZero p.min ∧ decimalValue p.min ≤ 255 ∧
    (∀ r ∈ p.rel, NoLeadingZero r ∧ r ≠ "0" ∧ decimalValue r ≤ 255) ∧
    (∀ r ∈ p.rc, NoLeadingZero r ∧ r ≠ "0" ∧ decimalValue r ≤ 255)

instance (p : Fields) : Decidable p.Canonical := by
  unfold Fields.Canonical; infer_instance

/-- The largest value of `int`. -/
def maxInt (sz : IntSize) : Nat := 2 ^ (sz.bits - 1) - 1

/-- The value stored in a field for an optional digit group: 0 when the group is absent,
else the decimal value, capped at the largest `int`, modulo 256. -/
def fieldValue (sz : IntSize) : Option String → Nat
  | none => 0
  | some d => min (decimalValue d) (maxInt sz) % 256

/-! ## The tests of the package pass on the embedding -/

theorem TestNew_passes (sz : IntSize) : TestNew sz = true := by
  cases sz <;> decide

theorem TestVersionCompare_passes (sz : IntSize) : TestVersionCompare sz = true := by
  cases sz <;> decide

/-! ## Decimal digits and numerals -/

theorem isDigit_iff_mem (c : Char) : isDigit c = true ↔ c ∈ decimalDigits := by
  constructor
  · intro h
    simp only [isDigit, Bool.and_eq_true, decide_eq_true_eq] at h
    obtain ⟨h1, h2⟩ := h
    have hc : c = Char.ofNat c.toNat := (Char.ofNat_toNat c).symm
    have h1 : 48 ≤ c.toNat := h1
    have h2 : c.toNat ≤ 57 := h2
    generalize c.toNat = n at hc h1 h2
    subst hc
    interval_cases n <;> decide
  · intro h
    simp only [decimalDigits, List.mem_cons, List.mem_singleton, List.not_mem_nil,
      or_false] at h
    rcases h with h | h | h | h | h | h | h | h | h | h <;> subst h <;> decide

theorem digitChar_props (d : Nat) (h : d < 10) :
    Char.ofNat ('0'.toNat + d) = Nat.digitChar d ∧ (Nat.digitChar d).toNat - 48 = d ∧
      isDigit (Nat.digitChar d) = true := by
  interval_cases d <;> decide

theorem fmtIntegerLoop_append (f u : Nat) (buf : List Char) :
    fmtIntegerLoop f u buf = fmtIntegerLoop f u [] ++ buf := by
  induction f generalizing u buf with
  | zero => simp [fmtIntegerLoop]
  | succ f ih =>
    simp only [fmtIntegerLoop]
    split
    · rw [ih, ih (u / 10) [_]]; simp
    · simp

theorem fmtIntegerLoop_eq (f u : Nat) (hf : u ≤ f) (hu : u ≠ 0) :
    fmtIntegerLoop f u [] = (Nat.digits 10 u).reverse.map Nat.digitChar := by
  induction f generalizing u with
  | zero => omega
  | succ f ih =>
    simp only [fmtIntegerLoop]
    split
    · rename_i h10
      rw [fmtIntegerLoop_append, ih (u / 10) (by omega) (by omega),
        Nat.digits_def' (by norm_num) (by omega : 0 < u)]
      have hd : u - u / 10 * 10 = u % 10 := by omega
      rw [hd, (digitChar_props (u % 10) (by omega)).1]
      simp
    · rename_i h10
      rw [Nat.digits_of_lt 10 u hu (by omega), (digitChar_props u (by omega)).1]
      simp

theorem fmtInteger_eq_dec (n : Nat) : fmtInteger n = dec n := by
  unfold fmtInteger dec
  split
  · subst n; rfl
  · rename_i h
    rw [fmtIntegerLoop_eq n n (le_refl n) h]

theorem dec_data_of_ne_zero (n : Nat) (h : n ≠ 0) :
    (dec n).data = (Nat.digits 10 n).reverse.map Nat.digitChar := by
  simp [dec, h]

theorem decimalValue_dec (n : Nat) : decimalValue (dec n) = n := by
  by_cases h : n = 0
  · subst h; decide
  · unfold decimalValue
    rw [dec_data_of_ne_zero n h, ← List.map_reverse, List.reverse_reverse, List.map_map]
    have hid : (Nat.digits 10 n).map ((fun c : Char => c.toNat - 48) ∘ Nat.digitChar)
        = Nat.digits 10 n := by
      conv_rhs => rw [← List.map_id (Nat.digits 10 n)]
      apply List.map_congr_left
      intro d hd
      exact (digitChar_props d (Nat.digits_lt_base (by norm_num) hd)).2.1
    rw [hid, Nat.ofDigits_digits]

theorem dec_digits1 (n : Nat) : Digits1 (dec n) := by
  by_cases h : n = 0
  · subst h; decide
  · unfold Digits1
    rw [dec_data_of_ne_zero n h]
    refine ⟨?_, ?_⟩
    · simp [Nat.digits_ne_nil_iff_ne_zero, h]
    · intro c hc
      simp only [List.mem_map, List.mem_reverse] at hc
      obtain ⟨d, hd, rfl⟩ := hc
      exact (isDigit_iff_mem _).1 (digitChar_props d (Nat.digits_lt_base (by norm_num) hd)).2.2

theorem dec_length (n : Nat) (h : n ≠ 0) : (dec n).length = (Nat.digits 10 n).length := by
  show (dec n).data.length = _
  rw [dec_data_of_ne_zero n h]; simp

theorem dec_length_le_two (n : Nat) (h : n ≤ 99) : (dec n).length ≤ 2 := by
  by_cases h0 : n = 0
  · subst h0; decide
  · rw [dec_length n h0]
    have h2 : (Nat.digits 10 99).length = 2 := by norm_num
    exact h2 ▸ Nat.le_digits_len_le 10 n 99 h

/-! ## `Atoi` on digit strings -/

theorem foldl_eq_ofDigits (ds : List Char) :
    ds.foldl (fun n ch => n * 10 + digitVal ch) 0
      = Nat.ofDigits 10 (ds.reverse.map (fun c => c.toNat - 48)) := by
  induction ds using List.reverseRecOn with
  | nil => rfl
  | append_singleton ds c ih =>
    rw [List.foldl_append, List.reverse_append]
    simp only [List.foldl_cons, List.foldl_nil, List.reverse_cons, List.reverse_nil,
      List.nil_append, List.singleton_append, List.map_cons, Nat.ofDigits_cons]
    rw [ih]
    show _ = (c.toNat - 48) + 10 * _
    unfold digitVal
    have h48 : '0'.toNat = 48 := rfl
    rw [h48]
    ring

theorem uint8_natCast (n : Nat) : uint8 (n : Int) = n % 256 := by
  unfold uint8
  omega

theorem maxInt_mod (sz : IntSize) : maxInt sz % 256 = 255 := by
  cases sz <;> decide

theorem le_maxInt (sz : IntSize) (n : Nat) (h : n < 2 ^ 31) : n ≤ maxInt sz := by
  cases sz <;> simp only [maxInt, IntSize.bits] <;> omega

theorem Atoi_digits (sz : IntSize) (s : String) (h : Digits1 s) :
    (Atoi sz s).1 = ((min (decimalValue s) (maxInt sz) : Nat) : Int) := by
  obtain ⟨hne, hall⟩ := h
  cases hs : s.data with
  | nil => exact absurd hs hne
  | cons c cs =>
    have hall2 : ∀ x ∈ c :: cs, isDigit x = true := by
      intro x hx
      exact (isDigit_iff_mem x).2 (hall x (hs ▸ hx))
    have hc : isDigit c = true := hall2 c (List.mem_cons_self _ _)
    have hplus : (c == '+') = false := by
      rw [beq_eq_false_iff_ne]; rintro rfl; revert hc; decide
    have hminus : (c == '-') = false := by
      rw [beq_eq_false_iff_ne]; rintro rfl; revert hc; decide
    have hbody : (c :: cs).all isDigit = true := List.all_eq_true.2 hall2
    have hval : (c :: cs).foldl (fun n ch => n * 10 + digitVal ch) 0 = decimalValue s := by
      rw [foldl_eq_ofDigits, decimalValue, hs]
    have hcut : 2 ^ (sz.bits - 1) = maxInt sz + 1 := by
      cases sz <;> decide
    unfold Atoi
    simp only [hs, hplus, hminus, Bool.or_self, Bool.false_eq_true, if_false, List.isEmpty_cons,
      hbody, Bool.not_true, Bool.not_false, Bool.true_and, Bool.false_and, hval, hcut,
      decide_eq_true_eq, Nat.add_sub_cancel]
    split
    · rename_i hle
      rw [Nat.min_eq_right (by omega)]
    · rename_i hle
      rw [Nat.min_eq_left (by omega)]

theorem uint8_Atoi_digits (sz : IntSize) (s : String) (h : Digits1 s) :
    uint8 (Atoi sz s).1 = min (decimalValue s) (maxInt sz) % 256 := by
  rw [Atoi_digits sz s h, uint8_natCast]

/-! ## The matcher -/

theorem repMatches_mem (k : CharClass) (lo : Nat) (hi : Option Nat) (s : List Char) :
    ∀ (n : Nat) (taken m r : List Char), (∀ h, hi = some h → n ≤ h) →
      ((m, r) ∈ repMatches k lo hi n taken s ↔
        ∃ m1, m = taken ++ m1 ∧ s = m1 ++ r ∧ (∀ c ∈ m1, k.mem c = true) ∧
          lo ≤ n + m1.length ∧ (∀ h, hi = some h → n + m1.length ≤ h)) := by
  induction s with
  | nil =>
    intro n taken m r hn
    simp only [repMatches]
    constructor
    · intro h
      split at h
      · rename_i hlo
        simp only [List.mem_singleton, Prod.mk.injEq] at h
        obtain ⟨rfl, rfl⟩ := h
        exact ⟨[], by simp, by simp, by simp, by simpa using hlo, by
          intro h hh; simpa using hn h hh⟩
      · simp at h
    · rintro ⟨m1, rfl, hs, -, hlo, -⟩
      have h1 : m1 = [] := (List.append_eq_nil.1 hs.symm).1
      have h2 : r = [] := (List.append_eq_nil.1 hs.symm).2
      subst h1 h2
      simp only [List.length_nil, Nat.add_zero] at hlo
      simp [hlo]
  | cons c cs ih =>
    intro n taken m r hn
    simp only [repMatches, List.mem_append]
    constructor
    · rintro (h | h)
      · split at h
        · rename_i hcond
          simp only [Bool.and_eq_true] at hcond
          obtain ⟨hk, hb⟩ := hcond
          have hn1 : ∀ h, hi = some h → n + 1 ≤ h := by
            intro h0 hh0
            subst hh0
            simpa [belowMax] using hb
          obtain ⟨m2, rfl, rfl, hall, hlo, hhi⟩ := (ih _ _ _ _ hn1).1 h
          refine ⟨c :: m2, by simp, by simp, ?_, ?_, ?_⟩
          · intro x hx
            rcases List.mem_cons.1 hx with rfl | hx
            · exact hk
            · exact hall x hx
          · simp only [List.length_cons]; omega
          · intro h0 hh0
            have := hhi h0 hh0
            simp only [List.length_cons]; omega
        · simp at h
      · split at h
        · rename_i hlo
          simp only [List.mem_singleton, Prod.mk.injEq] at h
          obtain ⟨rfl, rfl⟩ := h
          refine ⟨[], by simp, by simp, by simp, by simpa using hlo, ?_⟩
          intro h0 hh0
          simpa using hn h0 hh0
        · simp at h
    · rintro ⟨m1, rfl, hs, hall, hlo, hhi⟩
      cases m1 with
      | nil =>
        right
        simp only [List.nil_append] at hs
        subst hs
        simp only [List.length_nil, Nat.add_zero] at hlo
        simp [hlo]
      | cons x m2 =>
        left
        simp only [List.cons_append, List.cons.injEq] at hs
        obtain ⟨rfl, rfl⟩ := hs
        have hk : k.mem c = true := hall c (List.mem_cons_self _ _)
        have hb : belowMax hi n = true := by
          cases hi with
          | none => rfl
          | some h0 =>
            have := hhi h0 rfl
            simp only [List.length_cons] at this
            simp only [belowMax, decide_eq_true_eq]; omega
        have hn1 : ∀ h, hi = some h → n + 1 ≤ h := by
          intro h0 hh0
          have := hhi h0 hh0
          simp only [List.length_cons] at this; omega
        rw [if_pos (by rw [hk, hb]; rfl)]
        refine (ih _ _ _ _ hn1).2 ⟨m2, by simp, rfl, ?_, ?_, ?_⟩
        · intro y hy
          exact hall y (List.mem_cons_of_mem _ hy)
        · simp only [List.length_cons] at hlo; omega
        · intro h0 hh0
          have := hhi h0 hh0
          simp only [List.length_cons] at this; omega

theorem mem_run_seq (a b : Regex) (t u : Thread) :
    u ∈ (Regex.seq a b).run t ↔ ∃ w, w ∈ a.run t ∧ u ∈ b.run w := by
  simp only [Regex.run, List.mem_flatMap]

theorem mem_run_opt (a : Regex) (t u : Thread) :
    u ∈ (Regex.opt a).run t ↔ u ∈ a.run t ∨ u = t := by
  simp only [Regex.run, List.mem_append, List.mem_singleton]

theorem mem_run_bot (t u : Thread) : u ∈ Regex.bot.run t ↔ t.pos = 0 ∧ u = t := by
  simp only [Regex.run]
  split <;> simp [*]

theorem mem_run_eot (t u : Thread) : u ∈ Regex.eot.run t ↔ t.rest = [] ∧ u = t := by
  simp only [Regex.run]
  split
  · rename_i h
    simp [List.isEmpty_iff.1 h]
  · rename_i h
    simp only [List.not_mem_nil, false_iff, not_and]
    intro h2
    simp [h2] at h

theorem mem_run_lit (c : Char) (t u : Thread) :
    u ∈ (Regex.cls (.one c)).run t ↔ ∃ r, t.rest = c :: r ∧ u = ⟨t.pos + 1, r, t.caps⟩ := by
  simp only [Regex.run]
  split
  · rename_i h
    simp [h]
  · rename_i x xs h
    simp only [CharClass.mem, h, List.cons.injEq]
    split
    · rename_i hx
      have hx : x = c := by simpa using hx
      subst hx
      simp only [List.mem_singleton, true_and, exists_eq_left']
    · rename_i hx
      have hx : x ≠ c := by simpa using hx
      simp only [List.not_mem_nil, false_iff, not_exists, not_and]
      intro r hr
      exact absurd hr.1 hx

theorem mem_run_cap (i : Nat) (a : Regex) (t u : Thread) :
    u ∈ (Regex.cap i a).run t ↔
      ∃ w, w ∈ a.run t ∧
        u = ⟨w.pos, w.rest, fun j => if j = i then t.rest.take (w.pos - t.pos) else w.caps j⟩ := by
  simp only [Regex.run, List.mem_map]
  constructor
  · rintro ⟨w, hw, rfl⟩; exact ⟨w, hw, rfl⟩
  · rintro ⟨w, hw, rfl⟩; exact ⟨w, hw, rfl⟩

theorem mem_run_cap_rep (i : Nat) (k : CharClass) (lo : Nat) (hi : Option Nat) (t u : Thread) :
    u ∈ (Regex.cap i (.rep k lo hi)).run t ↔
      ∃ m r, t.rest = m ++ r ∧ (∀ c ∈ m, k.mem c = true) ∧ lo ≤ m.length ∧
        (∀ h, hi = some h → m.length ≤ h) ∧
        u = ⟨t.pos + m.length, r, fun j => if j = i then m else t.caps j⟩ := by
  simp only [mem_run_cap, Regex.run, List.mem_map, Prod.exists]
  constructor
  · rintro ⟨w, ⟨m, r, hmem, rfl⟩, rfl⟩
    obtain ⟨m1, hm, hs, hall, hlo, hhi⟩ :=
      (repMatches_mem k lo hi t.rest 0 [] m r (fun _ _ => Nat.zero_le _)).1 hmem
    simp only [List.nil_append] at hm
    subst hm
    refine ⟨m, r, hs, hall, by simpa using hlo, by simpa using hhi, ?_⟩
    simp [hs]
  · rintro ⟨m, r, hs, hall, hlo, hhi, rfl⟩
    refine ⟨_, ⟨m, r, ?_, rfl⟩, ?_⟩
    · exact (repMatches_mem k lo hi t.rest 0 [] m r (fun _ _ => Nat.zero_le _)).2
        ⟨m, by simp, hs, hall, by simpa using hlo, by simpa using hhi⟩
    · simp [hs]

theorem lit_sound (c : Char) (t u : Thread) (h : u ∈ (Regex.cls (.one c)).run t) :
    t.rest = c :: u.rest ∧ u.caps = t.caps := by
  obtain ⟨r, hr, rfl⟩ := (mem_run_lit c t u).1 h
  exact ⟨hr, rfl⟩

theorem lit_complete (c : Char) (t : Thread) (r : List Char) (h : t.rest = c :: r) :
    ∃ u, u ∈ (Regex.cls (.one c)).run t ∧ u.rest = r :=
  ⟨⟨t.pos + 1, r, t.caps⟩, (mem_run_lit c t _).2 ⟨r, h, rfl⟩, rfl⟩

theorem capd_sound (i lo : Nat) (hi : Option Nat) (t u : Thread)
    (h : u ∈ (Regex.cap i (.rep digit09 lo hi)).run t) :
    ∃ m, t.rest = m ++ u.rest ∧ (∀ c ∈ m, isDigit c = true) ∧ lo ≤ m.length ∧
      (∀ b, hi = some b → m.length ≤ b) ∧ u.caps i = m ∧ ∀ j, j ≠ i → u.caps j = t.caps j := by
  obtain ⟨m, r, hr, hall, hlo, hhi, rfl⟩ := (mem_run_cap_rep i digit09 lo hi t u).1 h
  refine ⟨m, hr, hall, hlo, hhi, ?_, ?_⟩
  · simp
  · intro j hj; simp [hj]

theorem capd_complete (i lo : Nat) (hi : Option Nat) (t : Thread) (m r : List Char)
    (hr : t.rest = m ++ r) (hall : ∀ c ∈ m, isDigit c = true) (hlo : lo ≤ m.length)
    (hhi : ∀ b, hi = some b → m.length ≤ b) :
    ∃ u, u ∈ (Regex.cap i (.rep digit09 lo hi)).run t ∧ u.rest = r :=
  ⟨_, (mem_run_cap_rep i digit09 lo hi t _).2 ⟨m, r, hr, hall, hlo, hhi, rfl⟩, rfl⟩

theorem optRel_sound (t u : Thread)
    (h : u ∈ (Regex.opt (.seq (.cls (.one '.')) (.cap 4 (.rep digit09 1 none)))).run t) :
    ∃ rel : Option (List Char), t.rest = optText ['.'] rel ++ u.rest ∧
      (∀ r ∈ rel, r ≠ [] ∧ ∀ c ∈ r, isDigit c = true) ∧
      (t.caps 4 = [] → u.caps 4 = rel.getD []) ∧ ∀ j, j ≠ 4 → u.caps j = t.caps j := by
  rcases (mem_run_opt _ t u).1 h with h | rfl
  · obtain ⟨w, hw, hu⟩ := (mem_run_seq _ _ t u).1 h
    obtain ⟨h1, h2⟩ := lit_sound _ _ _ hw
    obtain ⟨m, hm, hall, hlo, -, hc, hj⟩ := capd_sound _ _ _ _ _ hu
    refine ⟨some m, ?_, ?_, ?_, ?_⟩
    · rw [h1, hm]; rfl
    · intro r hr
      cases hr
      exact ⟨by intro h0; subst h0; simp at hlo, hall⟩
    · intro _; exact hc
    · intro j hj'; rw [hj j hj', h2]
  · exact ⟨none, rfl, by simp, fun h0 => h0, fun _ _ => rfl⟩

theorem optRc_sound (t u : Thread)
    (h : u ∈ (Regex.opt (.seq (.cls (.one '-')) (.seq (.cls (.one 'r'))
      (.seq (.cls (.one 'c')) (.cap 5 (.rep digit09 1 none)))))).run t) :
    ∃ rc : Option (List Char), t.rest = optText ['-', 'r', 'c'] rc ++ u.rest ∧
      (∀ r ∈ rc, r ≠ [] ∧ ∀ c ∈ r, isDigit c = true) ∧
      (t.caps 5 = [] → u.caps 5 = rc.getD []) ∧ ∀ j, j ≠ 5 → u.caps j = t.caps j := by
  rcases (mem_run_opt _ t u).1 h with h | rfl
  · obtain ⟨w1, hw1, h⟩ := (mem_run_seq _ _ t u).1 h
    obtain ⟨w2, hw2, h⟩ := (mem_run_seq _ _ w1 u).1 h
    obtain ⟨w3, hw3, hu⟩ := (mem_run_seq _ _ w2 u).1 h
    obtain ⟨h1, c1⟩ := lit_sound _ _ _ hw1
    obtain ⟨h2, c2⟩ := lit_sound _ _ _ hw2
    obtain ⟨h3, c3⟩ := lit_sound _ _ _ hw3
    obtain ⟨m, hm, hall, hlo, -, hc, hj⟩ := capd_sound _ _ _ _ _ hu
    refine ⟨some m, ?_, ?_, ?_, ?_⟩
    · rw [h1, h2, h3, hm]; rfl
    · intro r hr
      cases hr
      exact ⟨by intro h0; subst h0; simp at hlo, hall⟩
    · intro _; exact hc
    · intro j hj'; rw [hj j hj', c3, c2, c1]
  · exact ⟨none, rfl, by simp, fun h0 => h0, fun _ _ => rfl⟩

theorem optRel_complete (t : Thread) (rel : Option (List Char)) (r : List Char)
    (hr : t.rest = optText ['.'] rel ++ r)
    (hrel : ∀ x ∈ rel, x ≠ [] ∧ ∀ c ∈ x, isDigit c = true) :
    ∃ u, u ∈ (Regex.opt (.seq (.cls (.one '.')) (.cap 4 (.rep digit09 1 none)))).run t ∧
      u.rest = r := by
  cases rel with
  | none => exact ⟨t, (mem_run_opt _ t t).2 (Or.inr rfl), hr⟩
  | some m =>
    obtain ⟨hne, hall⟩ := hrel m rfl
    obtain ⟨w, hw, hwr⟩ := lit_complete '.' t (m ++ r) hr
    obtain ⟨u, hu, hur⟩ := capd_complete 4 1 none w m r hwr hall
      (List.length_pos.2 hne) (by simp)
    exact ⟨u, (mem_run_opt _ t u).2 (Or.inl ((mem_run_seq _ _ t u).2 ⟨w, hw, hu⟩)), hur⟩

theorem optRc_complete (t : Thread) (rc : Option (List Char)) (r : List Char)
    (hr : t.rest = optText ['-', 'r', 'c'] rc ++ r)
    (hrc : ∀ x ∈ rc, x ≠ [] ∧ ∀ c ∈ x, isDigit c = true) :
    ∃ u, u ∈ (Regex.opt (.seq (.cls (.one '-')) (.seq (.cls (.one 'r'))
      (.seq (.cls (.one 'c')) (.cap 5 (.rep digit09 1 none)))))).run t ∧ u.rest = r := by
  cases rc with
  | none => exact ⟨t, (mem_run_opt _ t t).2 (Or.inr rfl), hr⟩
  | some m =>
    obtain ⟨hne, hall⟩ := hrc m rfl
    obtain ⟨w1, hw1, hr1⟩ := lit_complete '-' t ('r' :: 'c' :: (m ++ r)) hr
    obtain ⟨w2, hw2, hr2⟩ := lit_complete 'r' w1 ('c' :: (m ++ r)) hr1
    obtain ⟨w3, hw3, hr3⟩ := lit_complete 'c' w2 (m ++ r) hr2
    obtain ⟨u, hu, hur⟩ := capd_complete 5 1 none w3 m r hr3 hall
      (List.length_pos.2 hne) (by simp)
    refine ⟨u, (mem_run_opt _ t u).2 (Or.inl ?_), hur⟩
    exact (mem_run_seq _ _ t u).2 ⟨w1, hw1, (mem_run_seq _ _ w1 u).2
      ⟨w2, hw2, (mem_run_seq _ _ w2 u).2 ⟨w3, hw3, hu⟩⟩⟩

/-- The digit groups of a text, as the matcher sees them: the shape of the text and the
conditions on the groups. -/
theorem vre_sound (s : List Char) (u : Thread) (h : u ∈ vre.run ⟨0, s, fun _ => []⟩) :
    ∃ (maj min : List Char) (rel rc : Option (List Char)),
      s = 'v' :: (maj ++ '.' :: (min ++ (optText ['.'] rel ++ optText ['-', 'r', 'c'] rc))) ∧
      (∀ c ∈ maj, isDigit c = true) ∧ 1 ≤ maj.length ∧ maj.length ≤ 2 ∧
      (∀ c ∈ min, isDigit c = true) ∧ 1 ≤ min.length ∧
      (∀ x ∈ rel, x ≠ [] ∧ ∀ c ∈ x, isDigit c = true) ∧
      (∀ x ∈ rc, x ≠ [] ∧ ∀ c ∈ x, isDigit c = true) ∧
      u.rest = [] ∧ u.caps 2 = maj ∧ u.caps 3 = min ∧ u.caps 4 = rel.getD [] ∧
      u.caps 5 = rc.getD [] := by
  unfold vre at h
  obtain ⟨w0, hw0, h⟩ := (mem_run_seq _ _ _ _).1 h
  obtain ⟨-, rfl⟩ := (mem_run_bot _ _).1 hw0
  obtain ⟨w1, hw1, h⟩ := (mem_run_seq _ _ _ _).1 h
  obtain ⟨hv, cv⟩ := lit_sound _ _ _ hw1
  obtain ⟨w2, hw2, h⟩ := (mem_run_seq _ _ _ _).1 h
  obtain ⟨he, hu2⟩ := (mem_run_eot _ _).1 h
  subst hu2
  obtain ⟨w3, hw3, hu⟩ := (mem_run_cap 1 _ w1 _).1 hw2
  obtain ⟨w4, hw4, h⟩ := (mem_run_seq _ _ _ _).1 hw3
  obtain ⟨maj, hmaj, dmaj, lmaj, bmaj, cmaj, jmaj⟩ := capd_sound _ _ _ _ _ hw4
  obtain ⟨w5, hw5, h⟩ := (mem_run_seq _ _ _ _).1 h
  obtain ⟨hdot, cdot⟩ := lit_sound _ _ _ hw5
  obtain ⟨w6, hw6, h⟩ := (mem_run_seq _ _ _ _).1 h
  obtain ⟨mi, hmin, dmin, lmin, -, cmin, jmin⟩ := capd_sound _ _ _ _ _ hw6
  obtain ⟨w7, hw7, h⟩ := (mem_run_seq _ _ _ _).1 h
  obtain ⟨rel, hrel, drel, crel, jrel⟩ := optRel_sound _ _ hw7
  obtain ⟨rc, hrc, drc, crc, jrc⟩ := optRc_sound _ _ h
  have e1 : u.rest = w3.rest := by rw [hu]
  have e2 : ∀ j, j ≠ 1 → u.caps j = w3.caps j := by
    intro j hj; rw [hu]; simp [hj]
  have hw3r : w3.rest = [] := by rw [← e1]; exact he
  have c0 : ∀ j, w1.caps j = [] := by intro j; rw [cv]
  refine ⟨maj, mi, rel, rc, ?_, dmaj, lmaj, bmaj 2 rfl, dmin, lmin, drel, drc, he, ?_, ?_, ?_, ?_⟩
  · have hs : s = 'v' :: w1.rest := hv
    rw [hs, hmaj, hdot, hmin, hrel, hrc, hw3r]
    simp
  · rw [e2 2 (by decide), jrc 2 (by decide), jrel 2 (by decide), jmin 2 (by decide), cdot, cmaj]
  · rw [e2 3 (by decide), jrc 3 (by decide), jrel 3 (by decide), cmin]
  · rw [e2 4 (by decide), jrc 4 (by decide)]
    apply crel
    rw [jmin 4 (by decide), cdot, jmaj 4 (by decide), c0]
  · rw [e2 5 (by decide)]
    apply crc
    rw [jrel 5 (by decide), jmin 5 (by decide), cdot, jmaj 5 (by decide), c0]

theorem vre_complete (maj min : List Char) (rel rc : Option (List Char))
    (dmaj : ∀ c ∈ maj, isDigit c = true) (lmaj : 1 ≤ maj.length) (bmaj : maj.length ≤ 2)
    (dmin : ∀ c ∈ min, isDigit c = true) (lmin : 1 ≤ min.length)
    (drel : ∀ x ∈ rel, x ≠ [] ∧ ∀ c ∈ x, isDigit c = true)
    (drc : ∀ x ∈ rc, x ≠ [] ∧ ∀ c ∈ x, isDigit c = true) (c0 : Nat → List Char) :
    ∃ u, u ∈ vre.run
      ⟨0, 'v' :: (maj ++ '.' :: (min ++ (optText ['.'] rel ++ optText ['-', 'r', 'c'] rc))),
        c0⟩ := by
  obtain ⟨w1, hw1, hr1⟩ := lit_complete 'v'
    ⟨0, 'v' :: (maj ++ '.' :: (min ++ (optText ['.'] rel ++ optText ['-', 'r', 'c'] rc))), c0⟩
    _ rfl
  obtain ⟨w4, hw4, hr4⟩ := capd_complete 2 1 (some 2) w1 maj _ hr1 dmaj lmaj
    (by intro b hb; cases hb; exact bmaj)
  obtain ⟨w5, hw5, hr5⟩ := lit_complete '.' w4 _ hr4
  obtain ⟨w6, hw6, hr6⟩ := capd_complete 3 1 none w5 min _ hr5 dmin lmin (by simp)
  obtain ⟨w7, hw7, hr7⟩ := optRel_complete w6 rel _ hr6 drel
  obtain ⟨w3, hw3, hr3⟩ := optRc_complete w7 rc [] (by simp [hr7]) drc
  have hbody := (mem_run_seq _ _ w1 w3).2 ⟨w4, hw4, (mem_run_seq _ _ w4 w3).2
    ⟨w5, hw5, (mem_run_seq _ _ w5 w3).2 ⟨w6, hw6, (mem_run_seq _ _ w6 w3).2 ⟨w7, hw7, hw3⟩⟩⟩⟩
  have hcap := (mem_run_cap 1 _ w1 _).2 ⟨w3, hbody, rfl⟩
  have heot := (mem_run_eot ⟨w3.pos, w3.rest,
    fun j => if j = 1 then w1.rest.take (w3.pos - w1.pos) else w3.caps j⟩ _).2 ⟨hr3, rfl⟩
  have h2 := (mem_run_seq _ _ w1 _).2 ⟨_, hcap, heot⟩
  have h1 := (mem_run_seq _ _ _ _).2 ⟨w1, hw1, h2⟩
  have h0 := (mem_run_seq _ _ _ _).2 ⟨_, (mem_run_bot _ _).2 ⟨rfl, rfl⟩, h1⟩
  exact ⟨_, h0⟩

/-! ## The digit groups of a text are unique -/

theorem digits_split_unique (ds : List Char) :
    ∀ (ds2 x x2 : List Char), (∀ c ∈ ds, isDigit c = true) → (∀ c ∈ ds2, isDigit c = true) →
      (∀ c, x.head? = some c → isDigit c = false) →
      (∀ c, x2.head? = some c → isDigit c = false) →
      ds ++ x = ds2 ++ x2 → ds = ds2 ∧ x = x2 := by
  induction ds with
  | nil =>
    intro ds2 x x2 _ h2 hx _ h
    cases ds2 with
    | nil => exact ⟨rfl, by simpa using h⟩
    | cons c cs =>
      simp only [List.nil_append, List.cons_append] at h
      have hd := hx c (by rw [h]; rfl)
      rw [h2 c (List.mem_cons_self _ _)] at hd
      exact absurd hd (by decide)
  | cons c cs ih =>
    intro ds2 x x2 h1 h2 hx hx2 h
    cases ds2 with
    | nil =>
      simp only [List.nil_append, List.cons_append] at h
      have hd := hx2 c (by rw [← h]; rfl)
      rw [h1 c (List.mem_cons_self _ _)] at hd
      exact absurd hd (by decide)
    | cons c2 cs2 =>
      simp only [List.cons_append, List.cons.injEq] at h
      obtain ⟨rfl, h⟩ := h
      obtain ⟨rfl, rfl⟩ := ih cs2 x x2 (fun y hy => h1 y (List.mem_cons_of_mem _ hy))
        (fun y hy => h2 y (List.mem_cons_of_mem _ hy)) hx hx2 h
      exact ⟨rfl, rfl⟩

theorem optText_rc_head (rc : Option (List Char)) :
    ∀ c, (optText ['-', 'r', 'c'] rc).head? = some c → isDigit c = false := by
  intro c h
  cases rc with
  | none => simp [optText] at h
  | some r =>
    simp only [optText, List.cons_append, List.head?_cons, Option.some.injEq] at h
    subst h; decide

theorem optText_tail_head (rel rc : Option (List Char)) :
    ∀ c, (optText ['.'] rel ++ optText ['-', 'r', 'c'] rc).head? = some c →
      isDigit c = false := by
  intro c h
  cases rel with
  | none =>
    simp only [optText, List.nil_append] at h
    exact optText_rc_head rc c h
  | some r =>
    simp only [optText, List.cons_append, List.head?_cons, Option.some.injEq] at h
    subst h; decide

theorem optText_rc_inj (rc rc2 : Option (List Char))
    (h : optText ['-', 'r', 'c'] rc = optText ['-', 'r', 'c'] rc2) : rc = rc2 := by
  cases rc <;> cases rc2 <;> simp_all [optText]

theorem decomp_unique (maj min : List Char) (rel rc : Option (List Char))
    (maj2 min2 : List Char) (rel2 rc2 : Option (List Char))
    (dmaj : ∀ c ∈ maj, isDigit c = true) (dmin : ∀ c ∈ min, isDigit c = true)
    (drel : ∀ x ∈ rel, x ≠ [] ∧ ∀ c ∈ x, isDigit c = true)
    (dmaj2 : ∀ c ∈ maj2, isDigit c = true) (dmin2 : ∀ c ∈ min2, isDigit c = true)
    (drel2 : ∀ x ∈ rel2, x ≠ [] ∧ ∀ c ∈ x, isDigit c = true)
    (h : 'v' :: (maj ++ '.' :: (min ++ (optText ['.'] rel ++ optText ['-', 'r', 'c'] rc)))
      = 'v' :: (maj2 ++ '.' :: (min2 ++ (optText ['.'] rel2 ++ optText ['-', 'r', 'c'] rc2)))) :
    maj = maj2 ∧ min = min2 ∧ rel = rel2 ∧ rc = rc2 := by
  have hdot : ∀ (x : List Char) (c : Char), ('.' :: x).head? = some c → isDigit c = false := by
    intro x c hc
    simp only [List.head?_cons, Option.some.injEq] at hc
    subst hc; decide
  have ha := (List.cons.inj h).2
  obtain ⟨rfl, hb⟩ := digits_split_unique maj maj2 _ _ dmaj dmaj2 (hdot _) (hdot _) ha
  have hc := (List.cons.inj hb).2
  obtain ⟨rfl, hd⟩ := digits_split_unique min min2 _ _ dmin dmin2
    (optText_tail_head rel rc) (optText_tail_head rel2 rc2) hc
  refine ⟨rfl, rfl, ?_⟩
  cases rel with
  | none =>
    cases rel2 with
    | none =>
      simp only [optText, List.nil_append] at hd
      exact ⟨rfl, optText_rc_inj rc rc2 hd⟩
    | some r2 =>
      exfalso
      cases rc <;> simp [optText] at hd
  | some r =>
    cases rel2 with
    | none =>
      exfalso
      cases rc2 <;> simp [optText] at hd
    | some r2 =>
      simp only [optText, List.cons_append, List.nil_append, List.cons.injEq, true_and] at hd
      obtain ⟨rfl, he⟩ := digits_split_unique r r2 _ _ (drel r rfl).2 (drel2 r2 rfl).2
        (optText_rc_head rc) (optText_rc_head rc2) hd
      exact ⟨rfl, optText_rc_inj rc rc2 he⟩

/-! ## `FindStringSubmatch` and `New` through the matcher -/

theorem vre_run_pos_succ (pos : Nat) (s : List Char) (c : Nat → List Char) :
    vre.run ⟨pos + 1, s, c⟩ = [] := by
  simp [vre, Regex.run]

theorem vre_search_succ (s : List Char) : ∀ pos, vre.search (pos + 1) s = none := by
  induction s with
  | nil => intro pos; simp [Regex.search, vre_run_pos_succ]
  | cons c cs ih => intro pos; simp [Regex.search, vre_run_pos_succ, ih]

theorem vre_search_zero (s : List Char) :
    vre.search 0 s = ((vre.run ⟨0, s, fun _ => []⟩).head?).map (fun t => (s, t)) := by
  cases s with
  | nil => rfl
  | cons c cs =>
    simp only [Regex.search]
    cases (vre.run ⟨0, c :: cs, fun _ => []⟩).head? with
    | none => simp [vre_search_succ]
    | some t => rfl

theorem FindStringSubmatch_vre (s : String) :
    vre.FindStringSubmatch s =
      match (vre.run ⟨0, s.data, fun _ => []⟩).head? with
      | none => []
      | some u =>
        [String.mk (s.data.take (s.data.length - u.rest.length)), String.mk (u.caps 1),
          String.mk (u.caps 2), String.mk (u.caps 3), String.mk (u.caps 4), String.mk (u.caps 5)] := by
  unfold Regex.FindStringSubmatch
  rw [vre_search_zero]
  cases (vre.run ⟨0, s.data, fun _ => []⟩).head? with
  | none => rfl
  | some u => rfl

theorem New_eq (sz : IntSize) (s : String) :
    New sz s =
      if s = "Unversioned" then some NoVersion
      else
        match (vre.run ⟨0, s.data, fun _ => []⟩).head? with
        | none => none
        | some u =>
          some ⟨uint8 (Atoi sz (String.mk (u.caps 2))).1, uint8 (Atoi sz (String.mk (u.caps 3))).1,
            if u.caps 4 ≠ [] then uint8 (Atoi sz (String.mk (u.caps 4))).1 else 0,
            if u.caps 5 ≠ [] then uint8 (Atoi sz (String.mk (u.caps 5))).1 else 0⟩ := by
  unfold New
  split
  · rfl
  · rw [FindStringSubmatch_vre]
    cases (vre.run ⟨0, s.data, fun _ => []⟩).head? with
    | none => rfl
    | some u =>
      have h4 : (String.mk (u.caps 4)).length > 0 ↔ u.caps 4 ≠ [] := by
        show (u.caps 4).length > 0 ↔ _
        exact List.length_pos
      have h5 : (String.mk (u.caps 5)).length > 0 ↔ u.caps 5 ≠ [] := by
        show (u.caps 5).length > 0 ↔ _
        exact List.length_pos
      simp only [List.length_cons, List.length_nil, List.getD_cons_succ, List.getD_cons_zero,
        h4, h5]
      simp

/-! ## The grammar and the matcher -/

theorem Fields.text_data (p : Fields) :
    p.text.data = 'v' :: (p.maj.data ++ '.' :: (p.min.data ++
      (optText ['.'] (p.rel.map String.data) ++ optText ['-', 'r', 'c'] (p.rc.map String.data)))) := by
  unfold Fields.text
  cases p.rel <;> cases p.rc <;> simp [String.data_append, optText]

theorem Digits1.allDigit {s : String} (h : Digits1 s) : ∀ c ∈ s.data, isDigit c = true :=
  fun c hc => (isDigit_iff_mem c).2 (h.2 c hc)

theorem Digits1.lengthPos {s : String} (h : Digits1 s) : 1 ≤ s.data.length :=
  List.length_pos.2 h.1

theorem digits1_mk (l : List Char) (hne : l ≠ []) (h : ∀ c ∈ l, isDigit c = true) :
    Digits1 (String.mk l) :=
  ⟨hne, fun c hc => (isDigit_iff_mem c).1 (h c hc)⟩

theorem optDigits_of_wf (o : Option String) (h : ∀ r ∈ o, Digits1 r) :
    ∀ x ∈ o.map String.data, x ≠ [] ∧ ∀ c ∈ x, isDigit c = true := by
  intro x hx
  cases o with
  | none => simp at hx
  | some r =>
    simp only [Option.map_some', Option.mem_def, Option.some.injEq] at hx
    subst hx
    exact ⟨(h r rfl).1, (h r rfl).allDigit⟩

theorem text_ne_unversioned (p : Fields) : p.text ≠ "Unversioned" := by
  intro h
  have h2 := congrArg String.data h
  rw [Fields.text_data] at h2
  exact absurd (List.cons.inj h2).1 (by decide)

/-- What `New` returns on a text of the grammar, in terms of `Atoi` on its digit groups. -/
theorem New_text_Atoi (sz : IntSize) (p : Fields) (h : p.WellFormed) :
    New sz p.text = some ⟨uint8 (Atoi sz p.maj).1, uint8 (Atoi sz p.min).1,
      (match p.rel with
        | none => 0
        | some r => uint8 (Atoi sz r).1),
      (match p.rc with
        | none => 0
        | some r => uint8 (Atoi sz r).1)⟩ := by
  obtain ⟨hmaj, lmaj, hmin, hrel, hrc⟩ := h
  rw [New_eq, if_neg (text_ne_unversioned p), Fields.text_data]
  obtain ⟨u0, hu0⟩ := vre_complete p.maj.data p.min.data (p.rel.map String.data)
    (p.rc.map String.data) hmaj.allDigit hmaj.lengthPos lmaj hmin.allDigit hmin.lengthPos
    (optDigits_of_wf _ hrel) (optDigits_of_wf _ hrc) (fun _ => [])
  cases hl : vre.run ⟨0, 'v' :: (p.maj.data ++ '.' :: (p.min.data ++
      (optText ['.'] (p.rel.map String.data) ++ optText ['-', 'r', 'c'] (p.rc.map String.data)))),
      fun _ => []⟩ with
  | nil => rw [hl] at hu0; exact absurd hu0 (List.not_mem_nil _)
  | cons u us =>
    have hu : u ∈ vre.run ⟨0, 'v' :: (p.maj.data ++ '.' :: (p.min.data ++
        (optText ['.'] (p.rel.map String.data) ++
          optText ['-', 'r', 'c'] (p.rc.map String.data)))), fun _ => []⟩ := by
      rw [hl]; exact List.mem_cons_self _ _
    obtain ⟨maj, mi, rel, rc, hs, dmaj, -, -, dmin, -, drel, drc, -, c2, c3, c4, c5⟩ :=
      vre_sound _ u hu
    obtain ⟨e1, e2, e3, e4⟩ := decomp_unique _ _ _ _ _ _ _ _ hmaj.allDigit hmin.allDigit
      (optDigits_of_wf _ hrel) dmaj dmin drel hs
    subst e1 e2 e3 e4
    simp only [List.head?_cons, c2, c3, c4, c5]
    cases hr : p.rel <;> cases hc : p.rc <;> simp only [hr, hc] at hrel hrc ⊢
    · simp
    · have := (hrc _ rfl).1
      simp [this]
    · have := (hrel _ rfl).1
      simp [this]
    · have h1 := (hrel _ rfl).1
      have h2 := (hrc _ rfl).1
      simp [h1, h2]

theorem Grammar_of_run (s : String) (u : Thread)
    (hu : u ∈ vre.run ⟨0, s.data, fun _ => []⟩) : Grammar s := by
  obtain ⟨maj, mi, rel, rc, hs, dmaj, lmaj, bmaj, dmin, lmin, drel, drc, -⟩ :=
    vre_sound _ u hu
  refine ⟨⟨String.mk maj, String.mk mi, rel.map String.mk, rc.map String.mk⟩, ?_, ?_⟩
  · refine ⟨digits1_mk _ (List.length_pos.1 lmaj) dmaj, bmaj,
      digits1_mk _ (List.length_pos.1 lmin) dmin, ?_, ?_⟩
    · intro r hr
      cases rel with
      | none => simp at hr
      | some x =>
        simp only [Option.map_some', Option.mem_def, Option.some.injEq] at hr
        subst hr
        exact digits1_mk _ (drel x rfl).1 (drel x rfl).2
    · intro r hr
      cases rc with
      | none => simp at hr
      | some x =>
        simp only [Option.map_some', Option.mem_def, Option.some.injEq] at hr
        subst hr
        exact digits1_mk _ (drc x rfl).1 (drc x rfl).2
  · apply String.ext
    rw [Fields.text_data, hs]
    cases rel <;> cases rc <;> simp

theorem New_isSome_iff (sz : IntSize) (s : String) :
    (New sz s).isSome = true ↔ s = "Unversioned" ∨ Grammar s := by
  constructor
  · intro h
    by_cases hU : s = "Unversioned"
    · exact Or.inl hU
    · right
      rw [New_eq, if_neg hU] at h
      cases hl : vre.run ⟨0, s.data, fun _ => []⟩ with
      | nil => rw [hl] at h; simp at h
      | cons u us =>
        exact Grammar_of_run s u (by rw [hl]; exact List.mem_cons_self _ _)
  · rintro (rfl | ⟨p, hp, rfl⟩)
    · rfl
    · rw [New_text_Atoi sz p hp]; rfl

/-! ## The rendering -/

theorem String_eq_render (v : LinuxVersion) : v.String = render v := by
  unfold LinuxVersion.String render
  simp only [fmtInteger_eq_dec]
  split
  · rfl
  · split
    · rfl
    · by_cases hrel : v.Rel > 0 <;> by_cases hrc : v.RC > 0 <;>
        simp [hrel, hrc, String.append_assoc]

theorem render_eq_text (v : LinuxVersion) (h0 : v.Major ≠ 0) (h255 : v.Major ≠ 255) :
    render v = (renderFields v).text := by
  unfold render renderFields Fields.text
  rw [if_neg h0, if_neg h255]
  by_cases hrel : v.Rel > 0 <;> by_cases hrc : v.RC > 0 <;> simp [hrel, hrc]

theorem renderFields_wf (v : LinuxVersion) (h : v.Major ≤ 99) : (renderFields v).WellFormed := by
  refine ⟨dec_digits1 _, dec_length_le_two _ h, dec_digits1 _, ?_, ?_⟩
  · intro r hr
    simp only [renderFields] at hr
    split at hr
    · cases hr; exact dec_digits1 _
    · cases hr
  · intro r hr
    simp only [renderFields] at hr
    split at hr
    · cases hr; exact dec_digits1 _
    · cases hr

/-! ## The fields that `New` stores -/

theorem digit_value_lt (c : Char) (h : isDigit c = true) : c.toNat - 48 < 10 := by
  simp only [isDigit, Bool.and_eq_true, decide_eq_true_eq] at h
  have h2 : c.toNat ≤ 57 := h.2
  omega

theorem decimalValue_lt (d : String) (h : Digits1 d) : decimalValue d < 10 ^ d.length := by
  unfold decimalValue
  have hlen : d.length = (d.data.reverse.map (fun c : Char => c.toNat - 48)).length := by
    show d.data.length = _
    simp
  rw [hlen]
  apply Nat.ofDigits_lt_base_pow_length (by norm_num)
  intro x hx
  simp only [List.mem_map, List.mem_reverse] at hx
  obtain ⟨c, hc, rfl⟩ := hx
  exact digit_value_lt c (h.allDigit c hc)

theorem major_value (sz : IntSize) (d : String) (h : Digits1 d) (h2 : d.length ≤ 2) :
    decimalValue d ≤ 99 ∧ uint8 (Atoi sz d).1 = decimalValue d := by
  have hlt := decimalValue_lt d h
  have hpow : 10 ^ d.length ≤ 10 ^ 2 := Nat.pow_le_pow_right (by norm_num) h2
  have h99 : decimalValue d ≤ 99 := by omega
  refine ⟨h99, ?_⟩
  rw [uint8_Atoi_digits sz d h, Nat.min_eq_left (le_maxInt sz _ (by omega))]
  omega

/-- What `New` returns on a text of the grammar, in terms of the decimal values of its
digit groups. -/
theorem New_text (sz : IntSize) (p : Fields) (h : p.WellFormed) :
    New sz p.text = some ⟨decimalValue p.maj, fieldValue sz (some p.min),
      fieldValue sz p.rel, fieldValue sz p.rc⟩ := by
  rw [New_text_Atoi sz p h]
  obtain ⟨hmaj, lmaj, hmin, hrel, hrc⟩ := h
  rw [(major_value sz p.maj hmaj lmaj).2, uint8_Atoi_digits sz p.min hmin]
  cases hr : p.rel <;> cases hc : p.rc <;> simp only [hr, hc] at hrel hrc ⊢
  · rfl
  · rw [uint8_Atoi_digits sz _ (hrc _ rfl)]; rfl
  · rw [uint8_Atoi_digits sz _ (hrel _ rfl)]; rfl
  · rw [uint8_Atoi_digits sz _ (hrel _ rfl), uint8_Atoi_digits sz _ (hrc _ rfl)]; rfl

theorem fieldValue_dec (sz : IntSize) (n : Nat) (h : n ≤ 255) :
    fieldValue sz (some (dec n)) = n := by
  simp only [fieldValue, decimalValue_dec]
  rw [Nat.min_eq_left (le_maxInt sz _ (by omega))]
  omega

/-- Parsing the rendering of a version with major in 1 to 99 and fields of eight bits gives
the version back. -/
theorem New_String_of_bounds (sz : IntSize) (v : LinuxVersion) (h1 : 1 ≤ v.Major)
    (h99 : v.Major ≤ 99) (hmin : v.Minor ≤ 255) (hrel : v.Rel ≤ 255) (hrc : v.RC ≤ 255) :
    New sz v.String = some v := by
  rw [String_eq_render, render_eq_text v (by omega) (by omega),
    New_text sz _ (renderFields_wf v h99)]
  have e1 : decimalValue (renderFields v).maj = v.Major := decimalValue_dec _
  have e2 : fieldValue sz (some (renderFields v).min) = v.Minor := fieldValue_dec sz _ hmin
  have e3 : fieldValue sz (renderFields v).rel = v.Rel := by
    simp only [renderFields]
    split
    · exact fieldValue_dec sz _ hrel
    · simp only [fieldValue]; omega
  have e4 : fieldValue sz (renderFields v).rc = v.RC := by
    simp only [renderFields]
    split
    · exact fieldValue_dec sz _ hrc
    · simp only [fieldValue]; omega
  rw [e1, e2, e3, e4]

theorem fieldValue_lt (sz : IntSize) (o : Option String) : fieldValue sz o < 256 := by
  cases o with
  | none => simp [fieldValue]
  | some d => simp only [fieldValue]; omega

/-- The ranges of the fields of a value that `New` makes from the numeric grammar. -/
theorem New_bounds (sz : IntSize) (s : String) (v : LinuxVersion) (hU : s ≠ "Unversioned")
    (h : New sz s = some v) :
    v.Major ≤ 99 ∧ v.Minor ≤ 255 ∧ v.Rel ≤ 255 ∧ v.RC ≤ 255 := by
  have hs : (New sz s).isSome = true := by rw [h]; rfl
  rcases (New_isSome_iff sz s).1 hs with rfl | ⟨p, hp, rfl⟩
  · exact absurd rfl hU
  · rw [New_text sz p hp] at h
    cases h
    have h1 := (major_value sz p.maj hp.1 hp.2.1).1
    have h2 := fieldValue_lt sz (some p.min)
    have h3 := fieldValue_lt sz p.rel
    have h4 := fieldValue_lt sz p.rc
    exact ⟨h1, Nat.le_of_lt_succ h2, Nat.le_of_lt_succ h3, Nat.le_of_lt_succ h4⟩

/-! ## Numerals without leading zeros -/

theorem digit_char_props (c : Char) (h : isDigit c = true) :
    Nat.digitChar (c.toNat - 48) = c ∧ (c ≠ '0' → c.toNat - 48 ≠ 0) := by
  have hm := (isDigit_iff_mem c).1 h
  simp only [decimalDigits, List.mem_cons, List.mem_singleton, List.not_mem_nil,
    or_false] at hm
  rcases hm with h | h | h | h | h | h | h | h | h | h <;> subst h <;> decide

theorem dec_decimalValue (d : String) (h : Digits1 d) (hz : NoLeadingZero d) :
    dec (decimalValue d) = d := by
  rcases hz with rfl | hz
  · decide
  · have hne := h.1
    have hall := h.allDigit
    cases hd : d.data with
    | nil => exact absurd hd hne
    | cons c cs =>
      rw [hd] at hall
      have hc0 : c ≠ '0' := by
        intro h0; apply hz; rw [hd, h0]; rfl
      have hL : ∀ l ∈ (c :: cs).reverse.map (fun c : Char => c.toNat - 48), l < 10 := by
        intro l hl
        simp only [List.mem_map, List.mem_reverse] at hl
        obtain ⟨x, hx, rfl⟩ := hl
        exact digit_value_lt x (hall x hx)
      have hlast : ∀ hn : (c :: cs).reverse.map (fun c : Char => c.toNat - 48) ≠ [],
          ((c :: cs).reverse.map (fun c : Char => c.toNat - 48)).getLast hn ≠ 0 := by
        intro hn
        have : ((c :: cs).reverse.map (fun c : Char => c.toNat - 48)).getLast hn
            = c.toNat - 48 := by
          simp [List.getLast_append]
        rw [this]
        exact (digit_char_props c (hall c (List.mem_cons_self _ _))).2 hc0
      have hdig := Nat.digits_ofDigits 10 (by norm_num) _ hL hlast
      have hn0 : decimalValue d ≠ 0 := by
        unfold decimalValue
        rw [hd]
        intro h0
        rw [h0, Nat.digits_zero] at hdig
        simp at hdig
      apply String.ext
      rw [dec_data_of_ne_zero _ hn0]
      unfold decimalValue
      rw [hd, hdig, ← List.map_reverse, List.reverse_reverse, List.map_map]
      conv_rhs => rw [← List.map_id (c :: cs)]
      apply List.map_congr_left
      intro x hx
      exact (digit_char_props x (hall x hx)).1

theorem dec_noLeadingZero (n : Nat) : NoLeadingZero (dec n) := by
  by_cases h : n = 0
  · subst h; left; rfl
  · right
    rw [dec_data_of_ne_zero n h]
    have hne : Nat.digits 10 n ≠ [] := Nat.digits_ne_nil_iff_ne_zero.2 h
    have hlast := Nat.getLast_digit_ne_zero 10 h
    have hlt : (Nat.digits 10 n).getLast hne < 10 :=
      Nat.digits_lt_base (by norm_num) (List.getLast_mem hne)
    rw [← List.dropLast_append_getLast hne]
    generalize (Nat.digits 10 n).getLast hne = x at hlast hlt
    simp only [List.reverse_append, List.reverse_cons, List.reverse_nil, List.nil_append,
      List.singleton_append, List.map_cons, List.head?_cons, ne_eq, Option.some.injEq]
    interval_cases x <;> first | exact absurd rfl hlast | decide

theorem dec_ne_zero (n : Nat) (h : n ≠ 0) : dec n ≠ "0" := by
  intro h0
  have := decimalValue_dec n
  rw [h0] at this
  exact h this.symm

theorem optMap_data_inj (a b : Option String)
    (h : a.map String.data = b.map String.data) : a = b := by
  cases a <;> cases b <;> simp_all [String.ext_iff]

theorem Fields.text_inj (p q : Fields) (hp : p.WellFormed) (hq : q.WellFormed)
    (h : p.text = q.text) : p = q := by
  have hd := congrArg String.data h
  rw [Fields.text_data, Fields.text_data] at hd
  obtain ⟨e1, e2, e3, e4⟩ := decomp_unique _ _ _ _ _ _ _ _ hp.1.allDigit hp.2.2.1.allDigit
    (optDigits_of_wf _ hp.2.2.2.1) hq.1.allDigit hq.2.2.1.allDigit
    (optDigits_of_wf _ hq.2.2.2.1) hd
  cases p; cases q
  simp only [Fields.mk.injEq]
  exact ⟨String.ext e1, String.ext e2, optMap_data_inj _ _ e3, optMap_data_inj _ _ e4⟩

theorem text_ne_empty (p : Fields) : p.text ≠ "" := by
  intro h
  have h2 := congrArg String.data h
  rw [Fields.text_data] at h2
  exact absurd h2 (List.cons_ne_nil _ _)

theorem decimalValue_ne_zero (d : String) (h : Digits1 d) (hz : NoLeadingZero d)
    (h0 : d ≠ "0") : decimalValue d ≠ 0 := by
  intro hv
  have := dec_decimalValue d h hz
  rw [hv] at this
  exact h0 this.symm

theorem fieldValue_canonical (sz : IntSize) (d : String) (h : decimalValue d ≤ 255) :
    fieldValue sz (some d) = decimalValue d := by
  simp only [fieldValue]
  rw [Nat.min_eq_left (le_maxInt sz _ (by omega))]
  omega

theorem optField_canonical (sz : IntSize) (o : Option String) (hwf : ∀ r ∈ o, Digits1 r)
    (hc : ∀ r ∈ o, NoLeadingZero r ∧ r ≠ "0" ∧ decimalValue r ≤ 255) :
    (if fieldValue sz o > 0 then some (dec (fieldValue sz o)) else none) = o := by
  cases o with
  | none => simp [fieldValue]
  | some r =>
    obtain ⟨hz, h0, hle⟩ := hc r rfl
    have hne := decimalValue_ne_zero r (hwf r rfl) hz h0
    rw [fieldValue_canonical sz r hle, if_pos (by omega), dec_decimalValue r (hwf r rfl) hz]

theorem optField_of_render (sz : IntSize) (o : Option String)
    (h : (if fieldValue sz o > 0 then some (dec (fieldValue sz o)) else none) = o) :
    ∀ r ∈ o, NoLeadingZero r ∧ r ≠ "0" ∧ decimalValue r ≤ 255 := by
  intro r hr
  cases hr
  split at h
  · rename_i hpos
    have hr : dec (fieldValue sz (some r)) = r := Option.some.inj h
    have hlt := fieldValue_lt sz (some r)
    have hv : decimalValue r = fieldValue sz (some r) := by
      conv_lhs => rw [← hr]
      exact decimalValue_dec _
    refine ⟨?_, ?_, by omega⟩
    · rw [← hr]; exact dec_noLeadingZero _
    · rw [← hr]; exact dec_ne_zero _ (by omega)
  · cases h

/-! ## Round trips between text and value -/

/-- C1, as stated, fails: `v01.2` is accepted by the grammar, and rendering the value parsed
from it gives `v1.2`, which is not the input (on either size of `int`). -/
theorem roundtrip_text_counterexample :
    Grammar "v01.2" ∧
      (New .bits32 "v01.2").map LinuxVersion.String = some "v1.2" ∧
      (New .bits64 "v01.2").map LinuxVersion.String = some "v1.2" ∧ "v1.2" ≠ "v01.2" :=
  ⟨⟨⟨"01", "2", none, none⟩, by decide, by decide⟩, by decide, by decide, by decide⟩

/-- C1, amended: for a text of the grammar, rendering the value parsed from it gives the
text back exactly when its digit groups are canonical: every group is written without
leading zeros and has a value of at most 255, the major is not zero, and a release or
release-candidate group, when present, is not zero. -/
theorem roundtrip_text_iff_canonical (sz : IntSize) (p : Fields) (hwf : p.WellFormed) :
    (New sz p.text).map LinuxVersion.String = some p.text ↔ p.Canonical := by
  rw [New_text sz p hwf, Option.map_some', Option.some.injEq, String_eq_render]
  obtain ⟨hmaj, lmaj, hmin, hrel, hrc⟩ := hwf
  have h99 := (major_value sz p.maj hmaj lmaj).1
  constructor
  · intro h
    have h0 : decimalValue p.maj ≠ 0 := by
      intro h0
      simp only [render, h0, if_true] at h
      exact text_ne_empty p h.symm
    rw [render_eq_text _ h0 (by show decimalValue p.maj ≠ 255; omega)] at h
    have hEq := Fields.text_inj _ _ (renderFields_wf _ h99) ⟨hmaj, lmaj, hmin, hrel, hrc⟩ h
    have e1 : dec (decimalValue p.maj) = p.maj := congrArg Fields.maj hEq
    have e2 : dec (fieldValue sz (some p.min)) = p.min := congrArg Fields.min hEq
    have e3 : (if fieldValue sz p.rel > 0 then some (dec (fieldValue sz p.rel)) else none)
        = p.rel := congrArg Fields.rel hEq
    have e4 : (if fieldValue sz p.rc > 0 then some (dec (fieldValue sz p.rc)) else none)
        = p.rc := congrArg Fields.rc hEq
    have hv : decimalValue p.min = fieldValue sz (some p.min) := by
      conv_lhs => rw [← e2]
      exact decimalValue_dec _
    have hlt := fieldValue_lt sz (some p.min)
    refine ⟨?_, ?_, ?_, by omega, optField_of_render sz _ e3, optField_of_render sz _ e4⟩
    · rw [← e1]; exact dec_noLeadingZero _
    · rw [← e1]; exact dec_ne_zero _ h0
    · rw [← e2]; exact dec_noLeadingZero _
  · rintro ⟨zmaj, nmaj, zmin, vmin, crel, crc⟩
    have h0 : decimalValue p.maj ≠ 0 := decimalValue_ne_zero _ hmaj zmaj nmaj
    rw [render_eq_text _ h0 (by show decimalValue p.maj ≠ 255; omega)]
    have hEq : renderFields ⟨decimalValue p.maj, fieldValue sz (some p.min),
        fieldValue sz p.rel, fieldValue sz p.rc⟩ = p := by
      cases p with
      | mk maj mi rel rc =>
        simp only [renderFields, Fields.mk.injEq]
        refine ⟨dec_decimalValue _ hmaj zmaj, ?_, optField_canonical sz _ hrel crel,
          optField_canonical sz _ hrc crc⟩
        rw [fieldValue_canonical sz _ vmin]
        exact dec_decimalValue _ hmin zmin
    rw [hEq]

/-- C1, amended, at the text `v1.2.3-rc4`. -/
theorem roundtrip_text_witness :
    Fields.WellFormed ⟨"1", "2", some "3", some "4"⟩ ∧
      Fields.Canonical ⟨"1", "2", some "3", some "4"⟩ ∧
      (New .bits64 "v1.2.3-rc4").map LinuxVersion.String = some "v1.2.3-rc4" :=
  ⟨by decide, by decide,
    (roundtrip_text_iff_canonical .bits64 ⟨"1", "2", some "3", some "4"⟩ (by decide)).2
      (by decide)⟩

/-- C2, as stated, fails: `New` produces the value `{0,1,0,0}` from `v0.1`; its rendering is
the empty string, which `New` does not parse. -/
theorem roundtrip_value_counterexample :
    New .bits32 "v0.1" = some ⟨0, 1, 0, 0⟩ ∧ New .bits64 "v0.1" = some ⟨0, 1, 0, 0⟩ ∧
      (⟨0, 1, 0, 0⟩ : LinuxVersion).String = "" ∧
      New .bits32 (⟨0, 1, 0, 0⟩ : LinuxVersion).String = none ∧
      New .bits64 (⟨0, 1, 0, 0⟩ : LinuxVersion).String = none :=
  ⟨by decide, by decide, by decide, by decide, by decide⟩

/-- C2, amended: for every value `v` that `New` produces and whose major is not zero, parsing
the rendering of `v` succeeds and yields a value that `Equals` `v`. -/
theorem roundtrip_value (sz : IntSize) (s : String) (v : LinuxVersion)
    (h : New sz s = some v) (h0 : v.Major ≠ 0) :
    ∃ w, New sz v.String = some w ∧ w.Equals v = true := by
  have hrefl : v.Equals v = true := by simp [LinuxVersion.Equals]
  by_cases hU : s = "Unversioned"
  · subst hU
    have hv : v = NoVersion := by
      have : New sz "Unversioned" = some NoVersion := rfl
      rw [this] at h
      exact (Option.some.inj h).symm
    subst hv
    exact ⟨NoVersion, rfl, rfl⟩
  · obtain ⟨b1, b2, b3, b4⟩ := New_bounds sz s v hU h
    exact ⟨v, New_String_of_bounds sz v (by omega) b1 b2 b3 b4, hrefl⟩

/-- C2, amended, at the value that `New` produces from `v1.0-rc3`. -/
theorem roundtrip_value_witness :
    New .bits64 "v1.0-rc3" = some ⟨1, 0, 0, 3⟩ ∧
      ∃ w, New .bits64 (⟨1, 0, 0, 3⟩ : LinuxVersion).String = some w ∧
        w.Equals ⟨1, 0, 0, 3⟩ = true :=
  ⟨by decide, roundtrip_value .bits64 "v1.0-rc3" ⟨1, 0, 0, 3⟩ (by decide) (by decide)⟩

/-- C3: for every value with major in 1 to 99 and minor, release and release candidate in
0 to 255, parsing its rendering succeeds and gives back the four fields. -/
theorem parse_render (sz : IntSize) (v : LinuxVersion) (h1 : 1 ≤ v.Major) (h99 : v.Major ≤ 99)
    (hmin : v.Minor ≤ 255) (hrel : v.Rel ≤ 255) (hrc : v.RC ≤ 255) :
    New sz v.String = some v :=
  New_String_of_bounds sz v h1 h99 hmin hrel hrc

/-- C3 at the example of the claim: `{1,2,3,4}` renders as `v1.2.3-rc4`, which parses
to `{1,2,3,4}`. -/
theorem parse_render_witness :
    (⟨1, 2, 3, 4⟩ : LinuxVersion).String = "v1.2.3-rc4" ∧
      New .bits64 "v1.2.3-rc4" = some ⟨1, 2, 3, 4⟩ :=
  ⟨by decide, parse_render .bits64 ⟨1, 2, 3, 4⟩ (by decide) (by decide) (by decide)
    (by decide) (by decide)⟩

/-! ## Acceptance and the stored fields -/

/-- C4: `New` returns nil exactly on the strings that are neither the literal `Unversioned`
nor, in their entirety, a text of the grammar; in particular `v1.0-rc3x`, `v100.0`,
`v10.0.3-` and `10.0.3` give nil. -/
theorem New_nil_iff (sz : IntSize) :
    (∀ s : String, New sz s = none ↔ s ≠ "Unversioned" ∧ ¬ Grammar s) ∧
      New sz "v1.0-rc3x" = none ∧ New sz "v100.0" = none ∧ New sz "v10.0.3-" = none ∧
      New sz "10.0.3" = none := by
  refine ⟨?_, ?_, ?_, ?_, ?_⟩
  · intro s
    rw [← not_or, ← New_isSome_iff sz s]
    cases New sz s <;> simp
  all_goals cases sz <;> decide

/-- C5, as stated, fails for digit strings whose value does not fit `int`: the minor of
`v1.9223372036854775808` is stored as 255, while the decimal value of its digits is 0
modulo 256 (on either size of `int`). -/
theorem New_fields_counterexample :
    New .bits32 "v1.9223372036854775808" = some ⟨1, 255, 0, 0⟩ ∧
      New .bits64 "v1.9223372036854775808" = some ⟨1, 255, 0, 0⟩ ∧
      decimalValue "9223372036854775808" % 256 = 0 :=
  ⟨by decide, by decide, by decide⟩

/-- C5, amended: for every text of the grammar, `New` stores as major the decimal value of
the major digits, and as minor, release and release candidate the decimal value of the
digit group, capped at the largest `int`, modulo 256 (so the value modulo 256 when it fits
`int`, and 255 beyond), with 0 for an absent group. -/
theorem New_fields (sz : IntSize) (p : Fields) (hwf : p.WellFormed) :
    New sz p.text = some ⟨decimalValue p.maj, fieldValue sz (some p.min),
        fieldValue sz p.rel, fieldValue sz p.rc⟩ ∧
      ∀ d : String,
        (decimalValue d ≤ maxInt sz → fieldValue sz (some d) = decimalValue d % 256) ∧
        (maxInt sz < decimalValue d → fieldValue sz (some d) = 255) := by
  refine ⟨New_text sz p hwf, fun d => ⟨?_, ?_⟩⟩
  · intro h
    simp only [fieldValue, Nat.min_eq_left h]
  · intro h
    simp only [fieldValue, Nat.min_eq_right (Nat.le_of_lt h), maxInt_mod]

/-- C5, amended, at the example of the claim: the minor of `v1.999` is 231. -/
theorem New_fields_witness :
    Fields.WellFormed ⟨"1", "999", none, none⟩ ∧ New .bits64 "v1.999" = some ⟨1, 231, 0, 0⟩ :=
  ⟨by decide, (New_fields .bits64 ⟨"1", "999", none, none⟩ (by decide)).1⟩

/-- C6, as stated, fails: `v0.0` is not `Unversioned`, `New` accepts it, and the major of
the result is 0, outside 1 to 99. -/
theorem New_major_counterexample :
    "v0.0" ≠ "Unversioned" ∧ (New .bits32 "v0.0").map LinuxVersion.Major = some 0 ∧
      (New .bits64 "v0.0").map LinuxVersion.Major = some 0 :=
  ⟨by decide, by decide, by decide⟩

/-- C6, amended: for every string other than `Unversioned` on which `New` succeeds, the
major of the result lies in 0 to 99. -/
theorem New_major_le (sz : IntSize) (s : String) (v : LinuxVersion) (hU : s ≠ "Unversioned")
    (h : New sz s = some v) : v.Major ≤ 99 :=
  (New_bounds sz s v hU h).1

/-- C6, amended, at `v10.20`. -/
theorem New_major_le_witness :
    "v10.20" ≠ "Unversioned" ∧ New .bits64 "v10.20" = some ⟨10, 20, 0, 0⟩ ∧
      (⟨10, 20, 0, 0⟩ : LinuxVersion).Major ≤ 99 :=
  ⟨by decide, by decide, New_major_le .bits64 "v10.20" ⟨10, 20, 0, 0⟩ (by decide) (by decide)⟩

/-- C7: `New` returns the value `NoVersion` exactly on the literal `Unversioned`, and no
other string yields a value of major 255. -/
theorem New_NoVersion_iff (sz : IntSize) (s : String) :
    (New sz s = some NoVersion ↔ s = "Unversioned") ∧
      (s ≠ "Unversioned" → ∀ v, New sz s = some v → v.Major ≠ 255) := by
  have h2 : s ≠ "Unversioned" → ∀ v, New sz s = some v → v.Major ≠ 255 := by
    intro hU v hv
    have := (New_bounds sz s v hU hv).1
    omega
  refine ⟨⟨?_, ?_⟩, h2⟩
  · intro h
    by_contra hU
    exact h2 hU NoVersion h rfl
  · rintro rfl; rfl

/-! ## Rendering -/

/-- C8: `String` returns the empty string when the major is 0, `Unversioned` when the major
is 255, and otherwise `v`, the numeral of the major, `.`, the numeral of the minor, followed
by `.` and the numeral of the release exactly when the release is positive, followed by
`-rc` and the numeral of the release candidate exactly when it is positive; the numerals are
decimal without leading zeros: the numeral `dec n` is a non-empty string of decimal digits,
does not start with `0` unless it is `0`, and has the decimal value `n`. -/
theorem String_spec (v : LinuxVersion) :
    v.String = render v ∧
      ∀ n, Digits1 (dec n) ∧ NoLeadingZero (dec n) ∧ decimalValue (dec n) = n :=
  ⟨String_eq_render v, fun n => ⟨dec_digits1 n, dec_noLeadingZero n, decimalValue_dec n⟩⟩

/-! ## Ordering -/

/-- C9: when the triples (major, minor, release) of two versions differ, `ComesBefore` holds
exactly when the first triple is lexicographically smaller than the second, whatever the
release candidates. -/
theorem ComesBefore_lex (v1 v2 : LinuxVersion)
    (h : (v1.Major, v1.Minor, v1.Rel) ≠ (v2.Major, v2.Minor, v2.Rel)) :
    v1.ComesBefore v2 = true ↔
      Prod.Lex (· < ·) (Prod.Lex (· < ·) (· < ·))
        (v1.Major, v1.Minor, v1.Rel) (v2.Major, v2.Minor, v2.Rel) := by
  simp only [ne_eq, Prod.mk.injEq, not_and] at h
  simp only [Prod.lex_def, LinuxVersion.ComesBefore]
  split_ifs <;> simp <;> omega

/-- C9 at `{1,0,0,0}` and `{1,1,0,5}`. -/
theorem ComesBefore_lex_witness :
    ((1 : Nat), (0 : Nat), (0 : Nat)) ≠ ((1 : Nat), (1 : Nat), (0 : Nat)) ∧
      LinuxVersion.ComesBefore ⟨1, 0, 0, 0⟩ ⟨1, 1, 0, 5⟩ = true :=
  ⟨by decide, (ComesBefore_lex ⟨1, 0, 0, 0⟩ ⟨1, 1, 0, 5⟩ (by decide)).2
    (Prod.Lex.right _ (Prod.Lex.left _ _ (by decide)))⟩

/-- C10: for two versions with equal major, minor and release, `ComesBefore` is false when
the first is a final release, true when the first is a release candidate and the second a
final release, and the comparison of the release-candidate numbers when both are release
candidates. -/
theorem ComesBefore_rc (v1 v2 : LinuxVersion) (hmaj : v1.Major = v2.Major)
    (hmin : v1.Minor = v2.Minor) (hrel : v1.Rel = v2.Rel) :
    (v1.RC = 0 → v1.ComesBefore v2 = false) ∧
      (v1.RC > 0 → v2.RC = 0 → v1.ComesBefore v2 = true) ∧
      (v1.RC > 0 → v2.RC > 0 → v1.ComesBefore v2 = decide (v1.RC < v2.RC)) := by
  simp only [LinuxVersion.ComesBefore, hmaj, hmin, hrel, Nat.lt_irrefl, if_false, gt_iff_lt]
  refine ⟨?_, ?_, ?_⟩
  · intro h; simp [h]
  · intro h1 h2; simp [h2]; omega
  · intro h1 h2
    rw [if_neg (by omega), if_neg (by omega)]

/-- C10 at the example of the claim: `v1.0-rc1` comes before `v1.0`, and `v1.0` does not come
before `v1.0-rc1`. -/
theorem ComesBefore_rc_witness :
    New .bits64 "v1.0-rc1" = some ⟨1, 0, 0, 1⟩ ∧ New .bits64 "v1.0" = some ⟨1, 0, 0, 0⟩ ∧
      LinuxVersion.ComesBefore ⟨1, 0, 0, 1⟩ ⟨1, 0, 0, 0⟩ = true ∧
      LinuxVersion.ComesBefore ⟨1, 0, 0, 0⟩ ⟨1, 0, 0, 1⟩ = false :=
  ⟨by decide, by decide,
    (ComesBefore_rc ⟨1, 0, 0, 1⟩ ⟨1, 0, 0, 0⟩ rfl rfl rfl).2.1 (by decide) rfl,
    (ComesBefore_rc ⟨1, 0, 0, 0⟩ ⟨1, 0, 0, 1⟩ rfl rfl rfl).1 rfl⟩

/-! ## The three predicates as an order -/

theorem ComesBefore_iff (a b : LinuxVersion) :
    a.ComesBefore b = true ↔
      a.Major < b.Major ∨ (a.Major = b.Major ∧ (a.Minor < b.Minor ∨ (a.Minor = b.Minor ∧
        (a.Rel < b.Rel ∨ (a.Rel = b.Rel ∧ a.RC ≠ 0 ∧ (b.RC = 0 ∨ a.RC < b.RC)))))) := by
  simp only [LinuxVersion.ComesBefore]
  split_ifs <;> simp <;> omega

theorem ComesAfter_iff (a b : LinuxVersion) :
    a.ComesAfter b = true ↔
      b.Major < a.Major ∨ (a.Major = b.Major ∧ (b.Minor < a.Minor ∨ (a.Minor = b.Minor ∧
        (b.Rel < a.Rel ∨ (a.Rel = b.Rel ∧ b.RC ≠ 0 ∧ (a.RC = 0 ∨ b.RC < a.RC)))))) := by
  simp only [LinuxVersion.ComesAfter]
  split_ifs <;> simp <;> omega

theorem Equals_iff_fields (a b : LinuxVersion) :
    a.Equals b = true ↔
      a.Major = b.Major ∧ a.Minor = b.Minor ∧ a.Rel = b.Rel ∧ a.RC = b.RC := by
  simp only [LinuxVersion.Equals, Bool.and_eq_true, decide_eq_true_eq, and_assoc]

theorem bool_eq_false_iff (x : Bool) : x = false ↔ ¬ x = true := by
  cases x <;> simp

/-- C11: `ComesAfter` is the exact mirror of `ComesBefore`: for all values,
`v1.ComesAfter(v2)` equals `v2.ComesBefore(v1)`, whatever the release candidates. -/
theorem ComesAfter_eq_ComesBefore_swap (v1 v2 : LinuxVersion) :
    v1.ComesAfter v2 = v2.ComesBefore v1 := by
  rw [Bool.eq_iff_iff, ComesAfter_iff, ComesBefore_iff]
  omega

/-- C12: for all values exactly one of `Equals`, `ComesBefore` and `ComesAfter` is true. -/
theorem compare_exactly_one (a b : LinuxVersion) :
    (a.Equals b = true ∧ a.ComesBefore b = false ∧ a.ComesAfter b = false) ∨
      (a.Equals b = false ∧ a.ComesBefore b = true ∧ a.ComesAfter b = false) ∨
      (a.Equals b = false ∧ a.ComesBefore b = false ∧ a.ComesAfter b = true) := by
  simp only [bool_eq_false_iff, Equals_iff_fields, ComesBefore_iff, ComesAfter_iff]
  omega

/-- C13: `ComesBefore` is transitive over all values, the tie-break on release candidates
included, and so is `ComesAfter`. -/
theorem ComesBefore_trans (a b c : LinuxVersion) :
    (a.ComesBefore b = true → b.ComesBefore c = true → a.ComesBefore c = true) ∧
      (a.ComesAfter b = true → b.ComesAfter c = true → a.ComesAfter c = true) := by
  simp only [ComesBefore_iff, ComesAfter_iff]
  constructor <;> intro h1 h2 <;> omega

/-- C13 at `v1.0-rc1`, `v1.0-rc2`, `v1.0` (before) and `v2.0`, `v1.1`, `v1.1-rc3` (after). -/
theorem ComesBefore_trans_witness :
    LinuxVersion.ComesBefore ⟨1, 0, 0, 1⟩ ⟨1, 0, 0, 0⟩ = true ∧
      LinuxVersion.ComesAfter ⟨2, 0, 0, 0⟩ ⟨1, 1, 0, 3⟩ = true :=
  ⟨(ComesBefore_trans ⟨1, 0, 0, 1⟩ ⟨1, 0, 0, 2⟩ ⟨1, 0, 0, 0⟩).1 (by decide) (by decide),
    (ComesBefore_trans ⟨2, 0, 0, 0⟩ ⟨1, 1, 0, 0⟩ ⟨1, 1, 0, 3⟩).2 (by decide) (by decide)⟩

/-- C14: for all values, if `ComesBefore` is true then `ComesAfter` is false, and if
`ComesAfter` is true then `ComesBefore` is false. -/
theorem ComesBefore_ComesAfter_exclusive (a b : LinuxVersion) :
    (a.ComesBefore b = true → a.ComesAfter b = false) ∧
      (a.ComesAfter b = true → a.ComesBefore b = false) := by
  simp only [bool_eq_false_iff, ComesBefore_iff, ComesAfter_iff]
  constructor <;> intro h <;> omega

/-- C14 at a release candidate and its final release, in both directions. -/
theorem ComesBefore_ComesAfter_exclusive_witness :
    LinuxVersion.ComesAfter ⟨1, 0, 0, 1⟩ ⟨1, 0, 0, 0⟩ = false ∧
      LinuxVersion.ComesBefore ⟨1, 0, 0, 0⟩ ⟨1, 0, 0, 1⟩ = false :=
  ⟨(ComesBefore_ComesAfter_exclusive ⟨1, 0, 0, 1⟩ ⟨1, 0, 0, 0⟩).1 (by decide),
    (ComesBefore_ComesAfter_exclusive ⟨1, 0, 0, 0⟩ ⟨1, 0, 0, 1⟩).2 (by decide)⟩

/-- C15: every value `Equals` itself, and neither comes before nor comes after itself. -/
theorem compare_self (v : LinuxVersion) :
    v.Equals v = true ∧ v.ComesBefore v = false ∧ v.ComesAfter v = false := by
  refine ⟨(Equals_iff_fields v v).2 ⟨rfl, rfl, rfl, rfl⟩, ?_, ?_⟩
  · rw [bool_eq_false_iff, ComesBefore_iff]; omega
  · rw [bool_eq_false_iff, ComesAfter_iff]; omega

/-- C16: `Equals` is true exactly when major, minor, release and release candidate are
pairwise equal, with no normalisation: the values of `v1.0` and `v1.0-rc1` are not equal. -/
theorem Equals_spec (sz : IntSize) (v1 v2 : LinuxVersion) :
    (v1.Equals v2 = true ↔
        v1.Major = v2.Major ∧ v1.Minor = v2.Minor ∧ v1.Rel = v2.Rel ∧ v1.RC = v2.RC) ∧
      ∃ a b, New sz "v1.0" = some a ∧ New sz "v1.0-rc1" = some b ∧ a.Equals b = false := by
  refine ⟨Equals_iff_fields v1 v2, ⟨1, 0, 0, 0⟩, ⟨1, 0, 0, 1⟩, ?_, ?_, by decide⟩ <;>
    cases sz <;> decide

/-- C17, as stated, fails: `{255,1,0,0}` is not `NoVersion`, and `NoVersion` does not come
after it. -/
theorem NoVersion_ComesAfter_counterexample :
    (⟨255, 1, 0, 0⟩ : LinuxVersion) ≠ NoVersion ∧
      NoVersion.ComesAfter ⟨255, 1, 0, 0⟩ = false :=
  ⟨by decide, by decide⟩

/-- C17, amended: `NoVersion` comes after a value exactly when the major of the value is
below 255, or it is 255 with minor 0, release 0 and a release candidate other than 0; in
particular `NoVersion` comes after every other value that `New` produces. -/
theorem NoVersion_ComesAfter_iff (v : LinuxVersion) :
    (NoVersion.ComesAfter v = true ↔
        v.Major < 255 ∨ (v.Major = 255 ∧ v.Minor = 0 ∧ v.Rel = 0 ∧ v.RC ≠ 0)) ∧
      (∀ sz s, New sz s = some v → v ≠ NoVersion → NoVersion.ComesAfter v = true) := by
  have h1 : NoVersion.ComesAfter v = true ↔
      v.Major < 255 ∨ (v.Major = 255 ∧ v.Minor = 0 ∧ v.Rel = 0 ∧ v.RC ≠ 0) := by
    rw [ComesAfter_iff]
    dsimp only [NoVersion]
    omega
  refine ⟨h1, ?_⟩
  intro sz s hs hne
  have hU : s ≠ "Unversioned" := by
    rintro rfl
    have : New sz "Unversioned" = some NoVersion := rfl
    rw [this] at hs
    exact hne (Option.some.inj hs).symm
  have hb := (New_bounds sz s v hU hs).1
  exact h1.2 (Or.inl (by omega))

/-- C18: the zero value comes before every value whose major is positive. -/
theorem zero_ComesBefore (v : LinuxVersion) (h : v.Major > 0) :
    LinuxVersion.ComesBefore ⟨0, 0, 0, 0⟩ v = true := by
  rw [ComesBefore_iff]
  exact Or.inl h

/-- C18 at `{1,0,0,0}`. -/
theorem zero_ComesBefore_witness :
    (⟨1, 0, 0, 0⟩ : LinuxVersion).Major > 0 ∧
      LinuxVersion.ComesBefore ⟨0, 0, 0, 0⟩ ⟨1, 0, 0, 0⟩ = true :=
  ⟨by decide, zero_ComesBefore ⟨1, 0, 0, 0⟩ (by decide)⟩

/-! ## Zero groups and the injectivity of the rendering -/

theorem fieldValue_zero (sz : IntSize) : fieldValue sz (some "0") = 0 := by
  cases sz <;> decide

theorem digits1_zero : Digits1 "0" := by decide

/-- C19: a literal zero release or zero release candidate is indistinguishable from absence:
for a major `M` of 1 to 2 digits and a minor `N` of 1 or more digits, `New` succeeds on
`vM.N.0`, on `vM.N-rc0` and on `vM.N`, the first two results `Equals` the third, and all
three render the same. -/
theorem New_zero_groups (sz : IntSize) (M N : String) (hM : Digits1 M) (hM2 : M.length ≤ 2)
    (hN : Digits1 N) :
    ∃ a b c, New sz ("v" ++ M ++ "." ++ N ++ ".0") = some a ∧
      New sz ("v" ++ M ++ "." ++ N ++ "-rc0") = some b ∧
      New sz ("v" ++ M ++ "." ++ N) = some c ∧
      a.Equals c = true ∧ b.Equals c = true ∧ a.String = c.String ∧ b.String = c.String := by
  have t0 : "v" ++ M ++ "." ++ N = Fields.text ⟨M, N, none, none⟩ := by
    apply String.ext; simp [Fields.text]
  have t1 : "v" ++ M ++ "." ++ N ++ ".0" = Fields.text ⟨M, N, some "0", none⟩ := by
    apply String.ext; simp [Fields.text]
  have t2 : "v" ++ M ++ "." ++ N ++ "-rc0" = Fields.text ⟨M, N, none, some "0"⟩ := by
    apply String.ext; simp [Fields.text]
  have hnone : ∀ r ∈ (none : Option String), Digits1 r := by
    intro r hr; cases hr
  have hzero : ∀ r ∈ some "0", Digits1 r := by
    intro r hr; cases hr; exact digits1_zero
  have w0 : Fields.WellFormed ⟨M, N, none, none⟩ := ⟨hM, hM2, hN, hnone, hnone⟩
  have w1 : Fields.WellFormed ⟨M, N, some "0", none⟩ := ⟨hM, hM2, hN, hzero, hnone⟩
  have w2 : Fields.WellFormed ⟨M, N, none, some "0"⟩ := ⟨hM, hM2, hN, hnone, hzero⟩
  have hself : ∀ v : LinuxVersion, v.Equals v = true :=
    fun v => (Equals_iff_fields v v).2 ⟨rfl, rfl, rfl, rfl⟩
  refine ⟨⟨decimalValue M, fieldValue sz (some N), 0, 0⟩,
    ⟨decimalValue M, fieldValue sz (some N), 0, 0⟩,
    ⟨decimalValue M, fieldValue sz (some N), 0, 0⟩, ?_, ?_, ?_, hself _, hself _, rfl, rfl⟩
  · rw [t1, New_text sz _ w1, fieldValue_zero]; rfl
  · rw [t2, New_text sz _ w2, fieldValue_zero]; rfl
  · rw [t0, New_text sz _ w0]; rfl

/-- C19 at `v5.10.0`, `v5.10-rc0` and `v5.10`. -/
theorem New_zero_groups_witness :
    Digits1 "5" ∧ Digits1 "10" ∧ New .bits64 "v5.10.0" = some ⟨5, 10, 0, 0⟩ ∧
      New .bits64 "v5.10-rc0" = some ⟨5, 10, 0, 0⟩ ∧ New .bits64 "v5.10" = some ⟨5, 10, 0, 0⟩ ∧
      ∃ a b c, New .bits64 ("v" ++ "5" ++ "." ++ "10" ++ ".0") = some a ∧
        New .bits64 ("v" ++ "5" ++ "." ++ "10" ++ "-rc0") = some b ∧
        New .bits64 ("v" ++ "5" ++ "." ++ "10") = some c ∧
        a.Equals c = true ∧ b.Equals c = true ∧ a.String = c.String ∧ b.String = c.String :=
  ⟨by decide, by decide, by decide, by decide, by decide,
    New_zero_groups .bits64 "5" "10" (by decide) (by decide) (by decide)⟩

theorem renderFields_digits (v : LinuxVersion) :
    Digits1 (renderFields v).maj ∧ Digits1 (renderFields v).min ∧
      (∀ r ∈ (renderFields v).rel, Digits1 r) ∧ (∀ r ∈ (renderFields v).rc, Digits1 r) := by
  refine ⟨dec_digits1 _, dec_digits1 _, ?_, ?_⟩
  · intro r hr
    simp only [renderFields] at hr
    split at hr
    · cases hr; exact dec_digits1 _
    · cases hr
  · intro r hr
    simp only [renderFields] at hr
    split at hr
    · cases hr; exact dec_digits1 _
    · cases hr

theorem renderFields_text_inj (a b : LinuxVersion)
    (h : (renderFields a).text = (renderFields b).text) : renderFields a = renderFields b := by
  obtain ⟨a1, a2, a3, -⟩ := renderFields_digits a
  obtain ⟨b1, b2, b3, -⟩ := renderFields_digits b
  have hd := congrArg String.data h
  rw [Fields.text_data, Fields.text_data] at hd
  obtain ⟨e1, e2, e3, e4⟩ := decomp_unique _ _ _ _ _ _ _ _ a1.allDigit a2.allDigit
    (optDigits_of_wf _ a3) b1.allDigit b2.allDigit (optDigits_of_wf _ b3) hd
  generalize renderFields a = p at e1 e2 e3 e4
  generalize renderFields b = q at e1 e2 e3 e4
  cases p; cases q
  simp only [Fields.mk.injEq]
  exact ⟨String.ext e1, String.ext e2, optMap_data_inj _ _ e3, optMap_data_inj _ _ e4⟩

theorem dec_inj (x y : Nat) (h : dec x = dec y) : x = y := by
  have := congrArg decimalValue h
  rwa [decimalValue_dec, decimalValue_dec] at this

theorem optDec_inj (x y : Nat)
    (h : (if x > 0 then some (dec x) else none) = (if y > 0 then some (dec y) else none)) :
    x = y := by
  by_cases hx : x > 0 <;> by_cases hy : y > 0 <;> simp only [hx, hy, if_true, if_false] at h
  · exact dec_inj x y (Option.some.inj h)
  · cases h
  · cases h
  · omega

/-- C20: the rendering is injective on ordinary versions: two values with major in 1 to 254
that render the same are `Equals`; it is not injective for major 0 nor for major 255. -/
theorem String_injective :
    (∀ a b : LinuxVersion, 1 ≤ a.Major → a.Major ≤ 254 → 1 ≤ b.Major → b.Major ≤ 254 →
        a.String = b.String → a.Equals b = true) ∧
      ((⟨0, 0, 0, 0⟩ : LinuxVersion).String = (⟨0, 1, 0, 0⟩ : LinuxVersion).String ∧
        LinuxVersion.Equals ⟨0, 0, 0, 0⟩ ⟨0, 1, 0, 0⟩ = false) ∧
      ((⟨255, 0, 0, 0⟩ : LinuxVersion).String = (⟨255, 1, 0, 0⟩ : LinuxVersion).String ∧
        LinuxVersion.Equals ⟨255, 0, 0, 0⟩ ⟨255, 1, 0, 0⟩ = false) := by
  refine ⟨?_, ⟨by decide, by decide⟩, ⟨by decide, by decide⟩⟩
  intro a b ha1 ha2 hb1 hb2 h
  rw [String_eq_render, String_eq_render, render_eq_text a (by omega) (by omega),
    render_eq_text b (by omega) (by omega)] at h
  have hEq := renderFields_text_inj a b h
  have e1 : dec a.Major = dec b.Major := congrArg Fields.maj hEq
  have e2 : dec a.Minor = dec b.Minor := congrArg Fields.min hEq
  have e3 : (if a.Rel > 0 then some (dec a.Rel) else none)
      = (if b.Rel > 0 then some (dec b.Rel) else none) := congrArg Fields.rel hEq
  have e4 : (if a.RC > 0 then some (dec a.RC) else none)
      = (if b.RC > 0 then some (dec b.RC) else none) := congrArg Fields.rc hEq
  exact (Equals_iff_fields a b).2
    ⟨dec_inj _ _ e1, dec_inj _ _ e2, optDec_inj _ _ e3, optDec_inj _ _ e4⟩

/-- C20 at two values that render as `v100.2.3-rc4`. -/
theorem String_injective_witness :
    (⟨100, 2, 3, 4⟩ : LinuxVersion).String = "v100.2.3-rc4" ∧
      LinuxVersion.Equals ⟨100, 2, 3, 4⟩ ⟨100, 2, 3, 4⟩ = true :=
  ⟨by decide, String_injective.1 ⟨100, 2, 3, 4⟩ ⟨100, 2, 3, 4⟩ (by decide) (by decide)
    (by decide) (by decide) rfl⟩

end Linuxver
